import Mathlib

/-!
Verification development for the Debian offline package downloader
(`debian-package-installer.py`).  The Python resolver core is shallowly
embedded below: pure functions become Lean functions, dictionaries become
association lists, exceptions become `Except String`, and the recursive
download walk becomes a fuel-indexed step function.  The Debian version
comparator (provided by the external `python-debian` library, not part of
this repository's sources) is modelled from the specification.
-/

/-! ## Generic comparator machinery -/

/-- Combination table for chaining comparison outcomes restricted to
`eq`/`gt`: two `eq` steps stay `eq`, any `gt` step forces `gt`. -/
def comboOrd (o₁ o₂ : Ordering) : Ordering :=
  match o₁, o₂ with
  | Ordering.eq, Ordering.eq => Ordering.eq
  | _, _ => Ordering.gt

/-- The laws a comparator must satisfy for the resolver proofs: reflexivity,
symmetry (as `swap`), and transitivity of the `eq`/`gt` fragment. -/
structure CmpLaws {α : Type} (cmp : α → α → Ordering) : Prop where
  refl : ∀ x, cmp x x = Ordering.eq
  symm : ∀ x y, (cmp x y).swap = cmp y x
  eq_trans : ∀ {x y z}, cmp x y = Ordering.eq → cmp y z = Ordering.eq →
    cmp x z = Ordering.eq
  gt_trans : ∀ {x y z}, cmp x y = Ordering.gt → cmp y z = Ordering.gt →
    cmp x z = Ordering.gt
  eq_gt : ∀ {x y z}, cmp x y = Ordering.eq → cmp y z = Ordering.gt →
    cmp x z = Ordering.gt
  gt_eq : ∀ {x y z}, cmp x y = Ordering.gt → cmp y z = Ordering.eq →
    cmp x z = Ordering.gt

/-- Integer comparison as an `Ordering`. -/
def intCmp (a b : Int) : Ordering :=
  if a < b then Ordering.lt else if a = b then Ordering.eq else Ordering.gt

/-- Natural-number comparison as an `Ordering`. -/
def natCmp (a b : Nat) : Ordering :=
  if a < b then Ordering.lt else if a = b then Ordering.eq else Ordering.gt

/-- Fuel-indexed lexicographic comparison of two lists where the shorter
list is padded with a default element `d`.  Structural in the fuel so that
the kernel can evaluate it. -/
def lexPadAux {α : Type} (f : α → α → Ordering) (d : α) :
    Nat → List α → List α → Ordering
  | _, [], [] => Ordering.eq
  | 0, _, _ => Ordering.eq
  | n + 1, a, b =>
    match f (a.headD d) (b.headD d) with
    | Ordering.eq => lexPadAux f d n a.tail b.tail
    | o => o

/-- Lexicographic list comparison with padding; total fuel is the sum of
the lengths, which always suffices. -/
def lexPadCmp {α : Type} (f : α → α → Ordering) (d : α)
    (a b : List α) : Ordering :=
  lexPadAux f d (a.length + b.length) a b

/-- Lexicographic comparison of pairs: the first component decides unless
it compares `eq`. -/
def lexProdCmp {α β : Type} (f : α → α → Ordering) (g : β → β → Ordering)
    (p q : α × β) : Ordering :=
  match f p.1 q.1 with
  | Ordering.eq => g p.2 q.2
  | o => o

/-! ## Debian version comparison

Modelled from the spec: the resolver delegates version ordering to
`debian.debian_support.Version` from the python-debian library, which is
not part of this repository's sources.  The spec (§4.1) prescribes Debian
policy §5.6.12 ordering: optional `epoch:` (non-negative integer, default
0), upstream version, optional `-debian_revision`, each non-numeric run
ordered by `~` < end-of-string < letters < other bytes, and each numeric
run compared as a number. -/

/-- Modelled from the spec: the character weight used inside non-numeric
runs (`~` sorts before end-of-string, letters before other punctuation). -/
def charOrder (c : Char) : Int :=
  if c.isAlpha then Int.ofNat c.toNat
  else if c = '~' then -1
  else Int.ofNat c.toNat + 256

/-- Decimal value of a digit run. -/
def natOfDigits (l : List Char) : Nat :=
  l.foldl (fun n c => n * 10 + (c.toNat - 48)) 0

/-- One token of a version part: a non-digit run together with the value
of the digit run that follows it. -/
abbrev VTok := List Char × Nat

/-- Fuel-indexed tokenizer splitting a version part into alternating
non-digit/digit runs. -/
def tokenizeAux : Nat → List Char → List VTok
  | 0, _ => []
  | _, [] => []
  | fuel + 1, s =>
    let p := s.takeWhile (fun c => !c.isDigit)
    let r1 := s.dropWhile (fun c => !c.isDigit)
    let d := r1.takeWhile Char.isDigit
    let r2 := r1.dropWhile Char.isDigit
    (p, natOfDigits d) :: tokenizeAux fuel r2

/-- Tokenize a version part; `s.length` fuel always suffices because every
round consumes at least one character. -/
def tokenize (s : List Char) : List VTok :=
  tokenizeAux s.length s

/-- Modelled from the spec: comparison of two non-digit runs char by char
with weight `charOrder`, the missing side weighing 0. -/
def runCmp (a b : List Char) : Ordering :=
  lexPadCmp intCmp 0 (a.map charOrder) (b.map charOrder)

/-- Comparison of one version token: non-digit run first, then the
numeric value. -/
def pairCmp (a b : VTok) : Ordering :=
  lexProdCmp runCmp natCmp a b

/-- Comparison of tokenized version parts, padding the shorter part with
the empty token `([], 0)`. -/
def tokCmp (a b : List VTok) : Ordering :=
  lexPadCmp pairCmp ([], 0) a b

/-- Modelled from the spec: split a version string into
`(epoch, upstream tokens, revision tokens)` — epoch before the first `:`
(default 0), revision after the last `-` (default empty). -/
def parseVersion (v : String) : Nat × List VTok × List VTok :=
  let s := v.data
  let (epoch, rest) :=
    if s.contains ':' then
      (natOfDigits (s.takeWhile (fun c => c != ':')),
       (s.dropWhile (fun c => c != ':')).tail)
    else (0, s)
  let (upstream, revision) :=
    if rest.contains '-' then
      ((((rest.reverse.dropWhile (fun c => c != '-')).tail).reverse),
       (rest.reverse.takeWhile (fun c => c != '-')).reverse)
    else (rest, [])
  (epoch, tokenize upstream, tokenize revision)

/-- Modelled from the spec: full Debian version comparison — epoch, then
upstream, then revision. -/
def debCompare (a b : String) : Ordering :=
  lexProdCmp natCmp (lexProdCmp tokCmp tokCmp) (parseVersion a) (parseVersion b)

/-- Codepoint-lexicographic string comparison (Python `str` ordering used
for the `source_hint` tie-break), with a prefix comparing less than any
extension. -/
def strCmp (a b : String) : Ordering :=
  lexPadCmp intCmp (-1) (a.data.map (fun c => Int.ofNat c.toNat))
    (b.data.map (fun c => Int.ofNat c.toNat))

/-! ## Data structures (`PackageRecord`, `DepAtom`) -/

/-- One binary package entry from a Debian Packages index stanza
(`PackageRecord` in the source).  `provides_map` is the ordered
association list behind the Python dict
`{virtual_name: provided_version or None}`. -/
structure PackageRecord where
  name : String
  version : String
  arch : String
  filename : String
  depends_raw : String
  pre_depends_raw : String
  provides_map : List (String × Option String)
  multi_arch : String
  priority : String
  source_hint : String
deriving Repr, DecidableEq

/-- One atomic dependency requirement (`DepAtom` in the source). -/
structure DepAtom where
  name : String
  arch_qual : Option String
  op : Option String
  ver : Option String
  arch_list : List String
deriving Repr, DecidableEq

/-- The two lookup tables `pkgs_by_name` / `provides_index`, as ordered
association lists from a name to its records. -/
abbrev PkgIndex := List (String × List PackageRecord)

/-- `dict.get(name, [])` on a `PkgIndex`. -/
def idxGet (m : PkgIndex) (k : String) : List PackageRecord :=
  match m with
  | [] => []
  | (k', v) :: rest => if k' = k then v else idxGet rest k

/-- All records occurring anywhere in an index. -/
def idxRecords (m : PkgIndex) : List PackageRecord :=
  (m.map Prod.snd).flatten

/-- The `(name, version, arch)` triple used by `visited_pkgkeys`. -/
abbrev PkgKey := String × String × String

/-- `pkg_key = (pkg.name, pkg.version, pkg.arch)`. -/
def pkgKey (p : PackageRecord) : PkgKey :=
  (p.name, p.version, p.arch)

/-! ## Python string helpers -/

/-- Python `str` whitespace (ASCII fragment). -/
def pyIsSpace (c : Char) : Bool :=
  c == ' ' || c == '\t' || c == '\n' || c == '\r' || c == '\x0b' || c == '\x0c'

/-- Python `str.strip()`. -/
def pyStrip (l : List Char) : List Char :=
  ((l.dropWhile pyIsSpace).reverse.dropWhile pyIsSpace).reverse

/-- Python `str.lstrip()`. -/
def pyLStrip (l : List Char) : List Char :=
  l.dropWhile pyIsSpace

/-- Python `str.split(sep)` for a one-character separator: splits on every
occurrence, keeping empty chunks. -/
def splitOnChar (sep : Char) : List Char → List (List Char)
  | [] => [[]]
  | c :: rest =>
    let r := splitOnChar sep rest
    if c = sep then [] :: r
    else
      match r with
      | [] => [[c]]
      | h :: t => (c :: h) :: t

/-- Fuel-indexed core of Python `str.split()` (split on whitespace runs,
no empty chunks). -/
def pyWsSplitAux : Nat → List Char → List (List Char)
  | 0, _ => []
  | fuel + 1, l =>
    match l.dropWhile pyIsSpace with
    | [] => []
    | c :: rest =>
      ((c :: rest).takeWhile (fun x => !pyIsSpace x)) ::
        pyWsSplitAux fuel ((c :: rest).dropWhile (fun x => !pyIsSpace x))

/-- Python `str.split()`; `l.length` fuel always suffices. -/
def pyWsSplit (l : List Char) : List (List Char) :=
  pyWsSplitAux l.length l

/-- Python `str.split(None, 1)`: first whitespace-separated token and the
remainder (with its leading whitespace removed), dropping a whitespace-only
remainder. -/
def pySplitNone1 (l : List Char) : List (List Char) :=
  match l.dropWhile pyIsSpace with
  | [] => []
  | c :: rest =>
    let tok := (c :: rest).takeWhile (fun x => !pyIsSpace x)
    let after := ((c :: rest).dropWhile (fun x => !pyIsSpace x)).dropWhile pyIsSpace
    if after = [] then [tok] else [tok, after]

/-- Python `str.split(sep, 1)` for a character known to occur: the part
before the first occurrence and the part after it. -/
def pySplitFirst (sep : Char) (l : List Char) : List Char × List Char :=
  (l.takeWhile (fun c => c != sep), (l.dropWhile (fun c => c != sep)).tail)

/-- Leftmost match of the regex `open (nonempty run of non-close) close`,
as used by `re.search` for `\[...\]` and `(...)` fragments.  Returns
`(before, inner, after)`. -/
def findDelim (op cl : Char) : List Char → Option (List Char × List Char × List Char)
  | [] => none
  | c :: rest =>
    let skip := fun () =>
      match findDelim op cl rest with
      | some (b, i, a) => some (c :: b, i, a)
      | none => none
    if c = op then
      match rest.takeWhile (fun x => x != cl), rest.dropWhile (fun x => x != cl) with
      | i :: irest, _ :: afterRest => some ([], i :: irest, afterRest)
      | _, _ => skip ()
    else skip ()

/-- Python `line.startswith(" ") or line.startswith("\t")`. -/
def startsWithSpaceTab (l : List Char) : Bool :=
  match l with
  | c :: _ => c == ' ' || c == '\t'
  | [] => false

/-- First character class of the package-name regex `[a-z0-9]`. -/
def isNameStart (c : Char) : Bool :=
  c.isLower || c.isDigit

/-- Tail character class of the package-name regex `[a-z0-9+.-]`. -/
def isNameChar (c : Char) : Bool :=
  c.isLower || c.isDigit || c == '+' || c == '.' || c == '-'

/-- The regex `^[a-z0-9][a-z0-9+.-]*$` used to sanity-check names. -/
def pkgNameOk : List Char → Bool
  | [] => false
  | c :: rest => isNameStart c && rest.all isNameChar

/-! ## Dependency parsing (`_parse_single_dep_atom`, `parse_dep_field`) -/

/-- `_parse_single_dep_atom`: parse one alternative of a dependency
expression.  Consumes an optional `[archlist]` fragment, an optional
`(op ver)` fragment, and splits the rest as `name[:archqual]`.  Raises
(`Except.error`) on unknown operators, malformed constraints, empty names
or qualifiers, and suspicious package names. -/
def _parse_single_dep_atom (atom_raw : String) : Except String DepAtom :=
  let work0 := pyStrip atom_raw.data
  -- Extract any [archlist]
  let (arch_list, work1) :=
    match findDelim '[' ']' work0 with
    | some (before, inner, after) =>
      ((pyWsSplit inner).map (fun a => String.mk (pyStrip a)), before ++ after)
    | none => ([], work0)
  -- Extract any (op ver)
  let step2 : Except String ((Option String × Option String) × List Char) :=
    match findDelim '(' ')' work1 with
    | some (before, inner, after) =>
      match pySplitNone1 (pyStrip inner) with
      | [op_part, ver_part] =>
        let op_candidate := String.mk (pyStrip op_part)
        let ver_candidate := String.mk (pyStrip ver_part)
        if ([">=", "<=", "=", ">>", "<<"] : List String).contains op_candidate then
          Except.ok ((some op_candidate, some ver_candidate), before ++ after)
        else
          Except.error ("Unknown version operator " ++ op_candidate ++
            " in dep atom " ++ atom_raw ++ ".")
      | _ =>
        Except.error ("Cannot parse version constraint in dep atom " ++
          atom_raw ++ ": expected (op version).")
    | none => Except.ok ((none, none), work1)
  match step2 with
  | Except.error e => Except.error e
  | Except.ok ((op, ver), work2) =>
    let work := pyStrip work2
    if work = [] then
      Except.error ("Dependency atom " ++ atom_raw ++
        " lost its base name after parsing; this should never happen.")
    else
      let step3 : Except String (List Char × Option String) :=
        if work.contains ':' then
          let (b, q) := pySplitFirst ':' work
          let base_name := pyStrip b
          let arch_qual := pyStrip q
          if base_name = [] then
            Except.error ("Bad dep atom " ++ atom_raw ++
              ": empty package name before colon")
          else if arch_qual = [] then
            Except.error ("Bad dep atom " ++ atom_raw ++
              ": empty arch qualifier after colon")
          else Except.ok (base_name, some (String.mk arch_qual))
        else Except.ok (work, none)
      match step3 with
      | Except.error e => Except.error e
      | Except.ok (base_name, arch_qual) =>
        if pkgNameOk base_name then
          Except.ok ⟨String.mk base_name, arch_qual, op, ver, arch_list⟩
        else
          Except.error ("Suspicious package name " ++ String.mk base_name ++
            " in dep atom " ++ atom_raw ++
            ". We refuse to continue because guessing wrong here is fatal.")

/-- `parse_dep_field`: parse a Depends/Pre-Depends value into AND-groups of
OR-alternatives.  Commas split groups, bars split alternatives; empty
segments are dropped and only non-empty groups are kept. -/
def parse_dep_field (dep_field_val : String) : Except String (List (List DepAtom)) :=
  if dep_field_val = "" then Except.ok []
  else
    match (((splitOnChar ',' dep_field_val.data).map pyStrip).filter
        (fun g => !g.isEmpty)).mapM (fun comma_grp =>
          (((splitOnChar '|' comma_grp).map pyStrip).filter (fun a => !a.isEmpty)).mapM
            (fun atom_raw => _parse_single_dep_atom (String.mk atom_raw))) with
    | Except.error e => Except.error e
    | Except.ok groups => Except.ok (groups.filter (fun g => !g.isEmpty))

/-! ## Version constraint evaluation -/

/-- `_version_satisfies`: compare a candidate version against an optional
constraint `(op, needed)` under Debian version semantics.  (The source
raises an internal error on an unknown operator at comparison time; since
the parser has already validated the operator, that unreachable branch is
modelled as an unsatisfied constraint.) -/
def _version_satisfies (candidate_version : String) (op : Option String)
    (needed_version : Option String) : Bool :=
  match op, needed_version with
  | none, _ => true
  | _, none => true
  | some o, some n =>
    let c := debCompare candidate_version n
    if o = "=" then decide (c = Ordering.eq)
    else if o = ">=" then decide (c ≠ Ordering.lt)
    else if o = "<=" then decide (c ≠ Ordering.gt)
    else if o = ">>" then decide (c = Ordering.gt)
    else if o = "<<" then decide (c = Ordering.lt)
    else false

/-- `_provided_version_satisfies`: decide whether a provider of a virtual
name satisfies a version constraint — by its declared `Provides` version
when one is present (Python truthiness: non-`None` and non-empty),
otherwise by the provider's own version. -/
def _provided_version_satisfies (provider_pkg : PackageRecord)
    (virtual_name : String) (op : Option String)
    (needed_version : Option String) : Bool :=
  match op, needed_version with
  | none, _ => true
  | _, none => true
  | some o, some n =>
    match (provider_pkg.provides_map.lookup virtual_name).join with
    | some declared_ver =>
      if declared_ver ≠ "" then _version_satisfies declared_ver (some o) (some n)
      else _version_satisfies provider_pkg.version (some o) (some n)
    | none => _version_satisfies provider_pkg.version (some o) (some n)

/-! ## Resolver core -/

/-- `_candidate_arches_for_atom`: the architectures acceptable for an atom.
Unqualified, `:any` and `:native` atoms accept the target arch and `all`;
a literal qualifier accepts exactly that arch. -/
def _candidate_arches_for_atom (atom : DepAtom) (target_arch : String) : List String :=
  match atom.arch_qual with
  | none => [target_arch, "all"]
  | some q =>
    if q = "any" then [target_arch, "all"]
    else if q = "native" then [target_arch, "all"]
    else [q]

/-- `_arch_restriction_allows`: an `[arch ...]` restriction gates the atom
to those architectures; an empty list means no restriction. -/
def _arch_restriction_allows (atom : DepAtom) (target_arch : String) : Bool :=
  if atom.arch_list.isEmpty then true
  else atom.arch_list.contains target_arch

/-- Sort key of `_select_best_candidate`:
`lambda pkg: (Version(pkg.version), pkg.source_hint)`. -/
def _pkg_sort_key (p : PackageRecord) : String × String :=
  (p.version, p.source_hint)

/-- Comparison of two records by the selection key (Debian version order
first, then codepoint order on `source_hint`). -/
def pyKeyCmp (a b : PackageRecord) : Ordering :=
  lexProdCmp debCompare strCmp (_pkg_sort_key a) (_pkg_sort_key b)

/-- One step of a stable descending insertion sort by `pyKeyCmp`:
the element goes after every existing element whose key is at least as
large (Python's `sorted(..., reverse=True)` is stable). -/
def _insert_desc (x : PackageRecord) : List PackageRecord → List PackageRecord
  | [] => [x]
  | y :: ys =>
    if pyKeyCmp x y = Ordering.gt then x :: y :: ys
    else y :: _insert_desc x ys

/-- Stable descending sort by the selection key, mirroring
`sorted(candidates, key=..., reverse=True)`. -/
def _sorted_desc (candidates : List PackageRecord) : List PackageRecord :=
  candidates.foldl (fun acc pkg => _insert_desc pkg acc) []

/-- `_select_best_candidate`: the head of the descending sort — newest
Debian version, ties broken by the larger `source_hint`.  (The source
raises on an empty candidate list; that is the `none` case here, and every
caller guards it.) -/
def _select_best_candidate (candidates : List PackageRecord) : Option PackageRecord :=
  (_sorted_desc candidates).head?

/-- The local `direct_matches` of `resolve_single_atom`: records of the
atom's name with an acceptable arch and a satisfied version constraint. -/
def _direct_matches (atom : DepAtom) (target_arch : String)
    (pkgs_by_name : PkgIndex) : List PackageRecord :=
  (idxGet pkgs_by_name atom.name).filter
    (fun pkg => (_candidate_arches_for_atom atom target_arch).contains pkg.arch &&
      _version_satisfies pkg.version atom.op atom.ver)

/-- The local `provider_matches` of `resolve_single_atom`: providers of the
atom's name with an acceptable arch and a satisfied provided version. -/
def _provider_matches (atom : DepAtom) (target_arch : String)
    (provides_index : PkgIndex) : List PackageRecord :=
  (idxGet provides_index atom.name).filter
    (fun provider => (_candidate_arches_for_atom atom target_arch).contains provider.arch &&
      _provided_version_satisfies provider atom.name atom.op atom.ver)

/-- `resolve_single_atom`: resolve one atom to a concrete record or `none`
(the source returns `None` both when the atom's `[arch ...]` restriction
excludes the target arch and when the atom is unsatisfiable). -/
def resolve_single_atom (atom : DepAtom) (target_arch : String)
    (pkgs_by_name : PkgIndex) (provides_index : PkgIndex) :
    Option PackageRecord :=
  if !_arch_restriction_allows atom target_arch then none
  else if !(_direct_matches atom target_arch pkgs_by_name).isEmpty then
    _select_best_candidate (_direct_matches atom target_arch pkgs_by_name)
  else if !(_provider_matches atom target_arch provides_index).isEmpty then
    _select_best_candidate (_provider_matches atom target_arch provides_index)
  else none

/-- Human-readable form of one atom, as rebuilt for the error message of
`resolve_dep_alternatives`. -/
def _describe_atom (atom : DepAtom) : String :=
  let d := atom.name
  let d := match atom.arch_qual with
    | some q => d ++ ":" ++ q
    | none => d
  let d := match atom.op, atom.ver with
    | some o, some v => d ++ " (" ++ o ++ " " ++ v ++ ")"
    | _, _ => d
  if atom.arch_list.isEmpty then d
  else d ++ " [" ++ String.intercalate ", " atom.arch_list ++ "]"

/-- `resolve_dep_alternatives`: try the atoms of an OR-group in order and
return the first resolved record; raise if no atom resolves. -/
def resolve_dep_alternatives (alt_group : List DepAtom) (target_arch : String)
    (pkgs_by_name : PkgIndex) (provides_index : PkgIndex) :
    Except String PackageRecord :=
  match alt_group.findSome?
      (fun atom => resolve_single_atom atom target_arch pkgs_by_name provides_index) with
  | some pkg => Except.ok pkg
  | none =>
    Except.error ("Could not satisfy any alternative in dependency group: " ++
      String.intercalate " | " (alt_group.map _describe_atom) ++
      "\nReasons this may happen:\n" ++
      " - The required package only exists for a different architecture.\n" ++
      " - The dependency is virtual and none of its providers are available.\n" ++
      " - A strict version constraint could not be met.\n" ++
      " - The Packages index in ./repository is incomplete or mismatched.\n")

/-- `True` iff an alternative-group resolution produced a record rather
than raising. -/
def resolutionSucceeded (r : Except String PackageRecord) : Bool :=
  match r with
  | Except.ok _ => true
  | Except.error _ => false

/-! ## Stanza parsing (`_parse_stanzas_from_file`) -/

/-- One stanza: an insertion-ordered field map, as a key/value list.
Lines are embedded as `List Char`. -/
abbrev Stanza := List (List Char × List Char)

/-- Python dict upsert `current[key] = val`: replace the value in place if
the key is present (keeping its position), otherwise append. -/
def dictSet (d : Stanza) (k v : List Char) : Stanza :=
  if d.any (fun kv => kv.1 == k) then
    d.map (fun kv => if kv.1 = k then (k, v) else kv)
  else d ++ [(k, v)]

/-- One line of the stanza-parser loop: blank lines flush the current
stanza, continuation lines append to the most recently inserted key (fatal
without an active stanza), any other line must be `Key: value` (fatal
without a colon). -/
def _parse_stanzas_step (acc : List Stanza × Stanza) (line : List Char) :
    Except String (List Stanza × Stanza) :=
  let (stanzas, current) := acc
  if line = [] then
    if !current.isEmpty then Except.ok (stanzas ++ [current], [])
    else Except.ok (stanzas, current)
  else if startsWithSpaceTab line then
    match (current.map Prod.fst).getLast? with
    | none =>
      Except.error ("Invalid Packages file format: got continuation line " ++
        "but we do not have an active stanza: " ++ String.mk line)
    | some last_key =>
      let old := (current.lookup last_key).getD []
      Except.ok (stanzas, dictSet current last_key (old ++ '\n' :: pyLStrip line))
  else if line.contains ':' then
    let (key, val) := pySplitFirst ':' line
    Except.ok (stanzas, dictSet current (pyStrip key) (pyLStrip val))
  else
    Except.error ("Invalid Packages file format: line without colon: " ++
      String.mk line)

/-- `_parse_stanzas_from_file`: fold the line processor over a file's
lines (each already stripped of its trailing newline) and flush a final
unterminated stanza. -/
def _parse_stanzas_from_file (lines : List String) : Except String (List Stanza) :=
  match (lines.map String.data).foldlM _parse_stanzas_step
      (([], []) : List Stanza × Stanza) with
  | Except.error e => Except.error e
  | Except.ok (stanzas, current) =>
    Except.ok (if !current.isEmpty then stanzas ++ [current] else stanzas)

/-! ## The closure walk (`fetch_dependencies_recursive`) -/

/-- Outcome of the dependency walk: normal completion (with the visited
key set and the processed records in download order), a fatal resolution
error, or fuel exhaustion (never reached with sufficient fuel). -/
inductive WalkResult where
  | done : List PkgKey → List PackageRecord → WalkResult
  | fatal : String → WalkResult
  | outOfFuel : WalkResult
deriving Repr, DecidableEq

/-- The for-loop of step 3 of the walk: resolve every dependency group of
the popped record in order, propagating the first fatal error. -/
def _resolve_groups (target_arch : String) (pkgs_by_name : PkgIndex)
    (provides_index : PkgIndex) :
    List (List DepAtom) → Except String (List PackageRecord)
  | [] => Except.ok []
  | alt_group :: groups =>
    match resolve_dep_alternatives alt_group target_arch pkgs_by_name provides_index with
    | Except.error e => Except.error e
    | Except.ok chosen =>
      match _resolve_groups target_arch pkgs_by_name provides_index groups with
      | Except.error e => Except.error e
      | Except.ok rest => Except.ok (chosen :: rest)

/-- The manual DFS stack loop of `fetch_dependencies_recursive`.  `deps`
abstracts `_process_package_and_get_deps` (downloading the `.deb` and
re-parsing its control data); the download itself is I/O and is modelled
only through the `processed` list of records whose dependencies were
fetched.  A popped record whose `(name, version, arch)` key is already in
`visited` is skipped outright. -/
def walkAux (deps : PackageRecord → List (List DepAtom)) (target_arch : String)
    (pkgs_by_name : PkgIndex) (provides_index : PkgIndex) :
    Nat → List PackageRecord → List PkgKey → List PackageRecord → WalkResult
  | 0, _, _, _ => WalkResult.outOfFuel
  | _ + 1, [], visited, processed => WalkResult.done visited processed
  | fuel + 1, pkg :: rest, visited, processed =>
    if pkgKey pkg ∈ visited then
      walkAux deps target_arch pkgs_by_name provides_index fuel rest visited processed
    else
      match _resolve_groups target_arch pkgs_by_name provides_index (deps pkg) with
      | Except.error e => WalkResult.fatal e
      | Except.ok chosen =>
        walkAux deps target_arch pkgs_by_name provides_index fuel
          (chosen.reverse ++ rest) (pkgKey pkg :: visited) (processed ++ [pkg])

/-- `fetch_dependencies_recursive`: parse the user-supplied name as a
single dependency atom, resolve it, and run the stack walk from that
record. -/
def fetch_dependencies_recursive (deps : PackageRecord → List (List DepAtom))
    (initial_pkg_name : String) (target_arch : String)
    (pkgs_by_name : PkgIndex) (provides_index : PkgIndex) (fuel : Nat) :
    WalkResult :=
  match _parse_single_dep_atom initial_pkg_name with
  | Except.error e => WalkResult.fatal e
  | Except.ok fake_atom =>
    match resolve_single_atom fake_atom target_arch pkgs_by_name provides_index with
    | none =>
      WalkResult.fatal ("Top-level package " ++ initial_pkg_name ++
        " could not be resolved for arch " ++ target_arch ++ ".")
    | some top_pkg =>
      walkAux deps target_arch pkgs_by_name provides_index fuel [top_pkg] [] []

/-- Every record any resolution step can ever return: the records of the
two indexes. -/
def walkUniverse (pkgs_by_name provides_index : PkgIndex) : List PackageRecord :=
  idxRecords pkgs_by_name ++ idxRecords provides_index

/-- Upper bound on how many dependency groups any record of a list can
contribute to the stack. -/
def maxGroupCount (deps : PackageRecord → List (List DepAtom)) :
    List PackageRecord → Nat
  | [] => 0
  | r :: rest => max (deps r).length (maxGroupCount deps rest)

/-- Number of distinct `(name, version, arch)` keys in the indexes. -/
def keyCount (pkgs_by_name provides_index : PkgIndex) : Nat :=
  (((walkUniverse pkgs_by_name provides_index).map pkgKey).dedup).length

/-- Number of distinct index keys not yet in `visited` — the potential of
the termination measure. -/
def unvisitedKeyCount (pkgs_by_name provides_index : PkgIndex)
    (visited : List PkgKey) : Nat :=
  ((((walkUniverse pkgs_by_name provides_index).map pkgKey).dedup).filter
    (fun k => decide (k ∉ visited))).length

/-- A fuel budget sufficient for any walk over the given indexes. -/
def walkFuel (deps : PackageRecord → List (List DepAtom))
    (pkgs_by_name provides_index : PkgIndex) : Nat :=
  2 + (maxGroupCount deps (walkUniverse pkgs_by_name provides_index) + 1) *
    keyCount pkgs_by_name provides_index

/-! ## Concrete scenario data -/

/-- The only record of the alternative-fallback scenario: the real package
`dbus-session-bus` providing the virtual `default-dbus-session-bus`. -/
def dbusRecord : PackageRecord :=
  ⟨"dbus-session-bus", "1.14.10-1", "arm64", "pool/main/d/dbus/dbus-session-bus.deb",
   "", "", [("default-dbus-session-bus", none)], "", "optional", "h/suite/main/binary-arm64"⟩

/-- `pkgs_by_name` for the alternative-fallback scenario. -/
def dbusPkgs : PkgIndex := [("dbus-session-bus", [dbusRecord])]

/-- `provides_index` for the alternative-fallback scenario. -/
def dbusProvides : PkgIndex := [("default-dbus-session-bus", [dbusRecord])]

/-- The sole provider of the versioned-Provides scenario: `bar` declaring
`Provides: foo (= 2.1)`. -/
def barRecord : PackageRecord :=
  ⟨"bar", "1.0", "arm64", "pool/main/b/bar/bar.deb",
   "", "", [("foo", some "2.1")], "", "optional", "h/suite/main/binary-arm64"⟩

/-- `pkgs_by_name` for the versioned-Provides scenario (no real `foo`). -/
def barPkgs : PkgIndex := [("bar", [barRecord])]

/-- `provides_index` for the versioned-Provides scenario. -/
def barProvides : PkgIndex := [("foo", [barRecord])]

/-- First record of a two-package dependency cycle (`cyca` depends on
`cycb`). -/
def cycARecord : PackageRecord :=
  ⟨"cyca", "1.0", "arm64", "pool/main/c/cyca/cyca.deb",
   "cycb", "", [], "", "optional", "h/suite/main/binary-arm64"⟩

/-- Second record of the cycle (`cycb` depends back on `cyca`). -/
def cycBRecord : PackageRecord :=
  ⟨"cycb", "1.0", "arm64", "pool/main/c/cycb/cycb.deb",
   "cyca", "", [], "", "optional", "h/suite/main/binary-arm64"⟩

/-- `pkgs_by_name` of the cyclic scenario. -/
def cycPkgs : PkgIndex := [("cyca", [cycARecord]), ("cycb", [cycBRecord])]

/-- Dependency groups read back from a downloaded `.deb`, modelled as
parsing the record's own index `Depends` field (the scenario mirrors
`_process_package_and_get_deps` when the mirror agrees with the index). -/
def depsFromRecord (r : PackageRecord) : List (List DepAtom) :=
  match parse_dep_field r.depends_raw with
  | Except.ok groups => groups
  | Except.error _ => []

/-- Explicit-arch scenario: an `Architecture: all` record of `mypkg` with
the newer version. -/
def myAllRecord : PackageRecord :=
  ⟨"mypkg", "1.0", "all", "pool/main/m/mypkg/mypkg-all.deb",
   "", "", [], "", "optional", "h/suite/main/binary-arm64"⟩

/-- Explicit-arch scenario: the `arm64` build of `mypkg` with the older
version. -/
def myArmRecord : PackageRecord :=
  ⟨"mypkg", "0.9", "arm64", "pool/main/m/mypkg/mypkg-arm64.deb",
   "", "", [], "", "optional", "h/suite/main/binary-arm64"⟩

/-- `pkgs_by_name` of the explicit-arch scenario. -/
def myPkgs : PkgIndex := [("mypkg", [myAllRecord, myArmRecord])]

/-- Version-tie scenario: same version, smaller `source_hint`. -/
def tieARecord : PackageRecord :=
  ⟨"libtie", "2.0-1", "arm64", "pool/main/l/libtie/libtie-a.deb",
   "", "", [], "", "optional", "a/suite/main/binary-arm64"⟩

/-- Version-tie scenario: same version, larger `source_hint`. -/
def tieBRecord : PackageRecord :=
  ⟨"libtie", "2.0-1", "arm64", "pool/main/l/libtie/libtie-b.deb",
   "", "", [], "", "optional", "b/suite/main/binary-arm64"⟩

/-! ## Comparator laws -/

theorem intCmp_eq_lt {a b : Int} : intCmp a b = Ordering.lt ↔ a < b := by
  unfold intCmp
  split_ifs with h1 h2 <;> simp_all <;> omega

theorem intCmp_eq_eq {a b : Int} : intCmp a b = Ordering.eq ↔ a = b := by
  unfold intCmp
  split_ifs with h1 h2 <;> simp_all <;> omega

theorem intCmp_eq_gt {a b : Int} : intCmp a b = Ordering.gt ↔ b < a := by
  unfold intCmp
  split_ifs with h1 h2 <;> simp_all <;> omega

theorem cmpLaws_intCmp : CmpLaws intCmp := by
  refine ⟨?_, ?_, ?_, ?_, ?_, ?_⟩
  · intro x
    simp [intCmp]
  · intro x y
    unfold intCmp
    split_ifs <;> first | rfl | omega
  · intro x y z h1 h2
    rw [intCmp_eq_eq] at *
    omega
  · intro x y z h1 h2
    rw [intCmp_eq_gt] at *
    omega
  · intro x y z h1 h2
    rw [intCmp_eq_eq] at h1
    rw [intCmp_eq_gt] at *
    omega
  · intro x y z h1 h2
    rw [intCmp_eq_eq] at h2
    rw [intCmp_eq_gt] at *
    omega

theorem natCmp_eq_eq {a b : Nat} : natCmp a b = Ordering.eq ↔ a = b := by
  unfold natCmp
  split_ifs with h1 h2 <;> simp_all <;> omega

theorem natCmp_eq_gt {a b : Nat} : natCmp a b = Ordering.gt ↔ b < a := by
  unfold natCmp
  split_ifs with h1 h2 <;> simp_all <;> omega

theorem cmpLaws_natCmp : CmpLaws natCmp := by
  refine ⟨?_, ?_, ?_, ?_, ?_, ?_⟩
  · intro x
    simp [natCmp]
  · intro x y
    unfold natCmp
    split_ifs <;> first | rfl | omega
  · intro x y z h1 h2
    rw [natCmp_eq_eq] at *
    omega
  · intro x y z h1 h2
    rw [natCmp_eq_gt] at *
    omega
  · intro x y z h1 h2
    rw [natCmp_eq_eq] at h1
    rw [natCmp_eq_gt] at *
    omega
  · intro x y z h1 h2
    rw [natCmp_eq_eq] at h2
    rw [natCmp_eq_gt] at *
    omega

theorem cmpLaws_comap {α β : Type} {f : β → β → Ordering} (g : α → β)
    (L : CmpLaws f) : CmpLaws (fun x y => f (g x) (g y)) :=
  ⟨fun x => L.refl (g x), fun x y => L.symm (g x) (g y),
   fun h1 h2 => L.eq_trans h1 h2, fun h1 h2 => L.gt_trans h1 h2,
   fun h1 h2 => L.eq_gt h1 h2, fun h1 h2 => L.gt_eq h1 h2⟩

theorem lexPadAux_nil_nil {α : Type} (f : α → α → Ordering) (d : α) (n : Nat) :
    lexPadAux f d n [] [] = Ordering.eq := by
  cases n <;> rfl

theorem lexPadAux_nil_cons {α : Type} (f : α → α → Ordering) (d : α) (n : Nat)
    (y : α) (ys : List α) :
    lexPadAux f d (n + 1) [] (y :: ys) =
      (match f d y with
       | Ordering.eq => lexPadAux f d n [] ys
       | o => o) := rfl

theorem lexPadAux_cons_nil {α : Type} (f : α → α → Ordering) (d : α) (n : Nat)
    (x : α) (xs : List α) :
    lexPadAux f d (n + 1) (x :: xs) [] =
      (match f x d with
       | Ordering.eq => lexPadAux f d n xs []
       | o => o) := rfl

theorem lexPadAux_cons_cons {α : Type} (f : α → α → Ordering) (d : α) (n : Nat)
    (x y : α) (xs ys : List α) :
    lexPadAux f d (n + 1) (x :: xs) (y :: ys) =
      (match f x y with
       | Ordering.eq => lexPadAux f d n xs ys
       | o => o) := rfl

theorem lexPadAux_fuel {α : Type} (f : α → α → Ordering) (d : α) :
    ∀ (n m : Nat) (a b : List α), a.length + b.length ≤ n →
      a.length + b.length ≤ m → lexPadAux f d n a b = lexPadAux f d m a b := by
  intro n
  induction n with
  | zero =>
    intro m a b hn hm
    have ha : a = [] := List.length_eq_zero.mp (by omega)
    have hb : b = [] := List.length_eq_zero.mp (by omega)
    subst ha
    subst hb
    rw [lexPadAux_nil_nil, lexPadAux_nil_nil]
  | succ n ih =>
    intro m a b hn hm
    rcases a with _ | ⟨x, xs⟩ <;> rcases b with _ | ⟨y, ys⟩
    · rw [lexPadAux_nil_nil, lexPadAux_nil_nil]
    · rcases m with _ | m
      · simp at hm
      · rw [lexPadAux_nil_cons, lexPadAux_nil_cons]
        cases hf : f d y
        · rfl
        · exact ih m [] ys (by simp at hn ⊢; omega) (by simp at hm ⊢; omega)
        · rfl
    · rcases m with _ | m
      · simp at hm
      · rw [lexPadAux_cons_nil, lexPadAux_cons_nil]
        cases hf : f x d
        · rfl
        · exact ih m xs [] (by simp at hn ⊢; omega) (by simp at hm ⊢; omega)
        · rfl
    · rcases m with _ | m
      · simp at hm
      · rw [lexPadAux_cons_cons, lexPadAux_cons_cons]
        cases hf : f x y
        · rfl
        · exact ih m xs ys (by simp at hn ⊢; omega) (by simp at hm ⊢; omega)
        · rfl

theorem lexPadCmp_nil_nil {α : Type} (f : α → α → Ordering) (d : α) :
    lexPadCmp f d [] [] = Ordering.eq := rfl

theorem lexPadCmp_nil_cons {α : Type} (f : α → α → Ordering) (d : α)
    (y : α) (ys : List α) :
    lexPadCmp f d [] (y :: ys) =
      (match f d y with
       | Ordering.eq => lexPadCmp f d [] ys
       | o => o) := by
  unfold lexPadCmp
  have h : (([] : List α)).length + (y :: ys).length = ys.length + 1 := by simp
  rw [h, lexPadAux_nil_cons]
  cases hf : f d y
  · rfl
  · exact lexPadAux_fuel f d ys.length (0 + ys.length) [] ys (by simp) (by simp)
  · rfl

theorem lexPadCmp_cons_nil {α : Type} (f : α → α → Ordering) (d : α)
    (x : α) (xs : List α) :
    lexPadCmp f d (x :: xs) [] =
      (match f x d with
       | Ordering.eq => lexPadCmp f d xs []
       | o => o) := by
  unfold lexPadCmp
  have h : (x :: xs).length + ([] : List α).length = xs.length + 1 := by simp
  rw [h, lexPadAux_cons_nil]
  cases hf : f x d
  · rfl
  · exact lexPadAux_fuel f d xs.length (xs.length + 0) xs [] (by simp) (by simp)
  · rfl

theorem lexPadCmp_cons_cons {α : Type} (f : α → α → Ordering) (d : α)
    (x y : α) (xs ys : List α) :
    lexPadCmp f d (x :: xs) (y :: ys) =
      (match f x y with
       | Ordering.eq => lexPadCmp f d xs ys
       | o => o) := by
  unfold lexPadCmp
  have h : (x :: xs).length + (y :: ys).length = (xs.length + ys.length + 1) + 1 := by
    simp
    omega
  rw [h, lexPadAux_cons_cons]
  cases hf : f x y
  · rfl
  · exact lexPadAux_fuel f d (xs.length + ys.length + 1) (xs.length + ys.length)
      xs ys (by omega) (by omega)
  · rfl

theorem lexPadCmp_refl {α : Type} {f : α → α → Ordering} {d : α}
    (L : CmpLaws f) (a : List α) : lexPadCmp f d a a = Ordering.eq := by
  induction a with
  | nil => rfl
  | cons x xs ih =>
    rw [lexPadCmp_cons_cons, L.refl]
    exact ih

theorem lexPadCmp_symm_aux {α : Type} {f : α → α → Ordering} {d : α}
    (L : CmpLaws f) :
    ∀ (n : Nat) (a b : List α), a.length + b.length ≤ n →
      (lexPadCmp f d a b).swap = lexPadCmp f d b a := by
  intro n
  induction n with
  | zero =>
    intro a b h
    have ha : a = [] := List.length_eq_zero.mp (by omega)
    have hb : b = [] := List.length_eq_zero.mp (by omega)
    subst ha
    subst hb
    rfl
  | succ n ih =>
    intro a b h
    rcases a with _ | ⟨x, xs⟩ <;> rcases b with _ | ⟨y, ys⟩
    · rfl
    · rw [lexPadCmp_nil_cons, lexPadCmp_cons_nil]
      have hyd : f y d = (f d y).swap := (L.symm d y).symm
      cases hf : f d y <;> rw [hf] at hyd <;> rw [hyd]
      · rfl
      · exact ih [] ys (by simp at h ⊢; omega)
      · rfl
    · rw [lexPadCmp_cons_nil, lexPadCmp_nil_cons]
      have hyd : f d x = (f x d).swap := (L.symm x d).symm
      cases hf : f x d <;> rw [hf] at hyd <;> rw [hyd]
      · rfl
      · exact ih xs [] (by simp at h ⊢; omega)
      · rfl
    · rw [lexPadCmp_cons_cons, lexPadCmp_cons_cons]
      have hyx : f y x = (f x y).swap := (L.symm x y).symm
      cases hf : f x y <;> rw [hf] at hyx <;> rw [hyx]
      · rfl
      · exact ih xs ys (by simp at h ⊢; omega)
      · rfl

theorem lexPadCmp_symm {α : Type} {f : α → α → Ordering} {d : α}
    (L : CmpLaws f) (a b : List α) :
    (lexPadCmp f d a b).swap = lexPadCmp f d b a :=
  lexPadCmp_symm_aux L (a.length + b.length) a b (Nat.le_refl _)

theorem lexPadCmp_comb {α : Type} {f : α → α → Ordering} {d : α}
    (L : CmpLaws f) :
    ∀ (n : Nat) (a b c : List α), a.length + b.length + c.length ≤ n →
      ∀ (o1 o2 : Ordering), (o1 = Ordering.eq ∨ o1 = Ordering.gt) →
      (o2 = Ordering.eq ∨ o2 = Ordering.gt) →
      lexPadCmp f d a b = o1 → lexPadCmp f d b c = o2 →
      lexPadCmp f d a c = comboOrd o1 o2 := by
  intro n
  induction n with
  | zero =>
    intro a b c hlen o1 o2 ho1 ho2 h1 h2
    have ha : a = [] := List.length_eq_zero.mp (by omega)
    have hb : b = [] := List.length_eq_zero.mp (by omega)
    have hc : c = [] := List.length_eq_zero.mp (by omega)
    subst ha
    subst hb
    subst hc
    rw [lexPadCmp_nil_nil] at h1 h2
    rw [lexPadCmp_nil_nil, ← h1, ← h2]
    rfl
  | succ n ih =>
    intro a b c hlen o1 o2 ho1 ho2 h1 h2
    by_cases hab : a = [] ∧ b = []
    · obtain ⟨ha, hb⟩ := hab
      subst ha
      subst hb
      rw [lexPadCmp_nil_nil] at h1
      subst h1
      rcases ho2 with h | h <;> subst h <;> simpa [comboOrd] using h2
    · by_cases hbc : b = [] ∧ c = []
      · obtain ⟨hb, hc⟩ := hbc
        subst hb
        subst hc
        rw [lexPadCmp_nil_nil] at h2
        subst h2
        rcases ho1 with h | h <;> subst h <;> simpa [comboOrd] using h1
      · -- both comparisons take a real step
        have hone : 1 ≤ a.length + b.length := by
          rcases not_and_or.mp hab with h | h
          · rcases a with _ | ⟨x, xs⟩
            · exact absurd rfl h
            · simp
              omega
          · rcases b with _ | ⟨y, ys⟩
            · exact absurd rfl h
            · simp
              omega
        have hstep1 : lexPadCmp f d a b =
            (match f (a.headD d) (b.headD d) with
             | Ordering.eq => lexPadCmp f d a.tail b.tail
             | o => o) := by
          rcases a with _ | ⟨x, xs⟩ <;> rcases b with _ | ⟨y, ys⟩
          · exact absurd ⟨rfl, rfl⟩ hab
          · exact lexPadCmp_nil_cons f d y ys
          · exact lexPadCmp_cons_nil f d x xs
          · exact lexPadCmp_cons_cons f d x y xs ys
        have hstep2 : lexPadCmp f d b c =
            (match f (b.headD d) (c.headD d) with
             | Ordering.eq => lexPadCmp f d b.tail c.tail
             | o => o) := by
          rcases b with _ | ⟨y, ys⟩ <;> rcases c with _ | ⟨z, zs⟩
          · exact absurd ⟨rfl, rfl⟩ hbc
          · exact lexPadCmp_nil_cons f d z zs
          · exact lexPadCmp_cons_nil f d y ys
          · exact lexPadCmp_cons_cons f d y z ys zs
        have htails : a.tail.length + b.tail.length + c.tail.length ≤ n := by
          simp [List.length_tail] at *
          omega
        rw [hstep1] at h1
        rw [hstep2] at h2
        have hgoalstep : (a = [] ∧ c = []) ∨ lexPadCmp f d a c =
            (match f (a.headD d) (c.headD d) with
             | Ordering.eq => lexPadCmp f d a.tail c.tail
             | o => o) := by
          rcases a with _ | ⟨x, xs⟩ <;> rcases c with _ | ⟨z, zs⟩
          · exact Or.inl ⟨rfl, rfl⟩
          · exact Or.inr (lexPadCmp_nil_cons f d z zs)
          · exact Or.inr (lexPadCmp_cons_nil f d x xs)
          · exact Or.inr (lexPadCmp_cons_cons f d x z xs zs)
        cases hxy : f (a.headD d) (b.headD d) <;>
          cases hyz : f (b.headD d) (c.headD d) <;> rw [hxy] at h1 <;> rw [hyz] at h2
        · -- lt, lt: contradicts ho1
          have hlt : o1 = Ordering.lt := by rw [← h1]
          subst hlt
          rcases ho1 with h | h <;> exact Ordering.noConfusion h
        · have hlt : o1 = Ordering.lt := by rw [← h1]
          subst hlt
          rcases ho1 with h | h <;> exact Ordering.noConfusion h
        · have hlt : o1 = Ordering.lt := by rw [← h1]
          subst hlt
          rcases ho1 with h | h <;> exact Ordering.noConfusion h
        · have hlt : o2 = Ordering.lt := by rw [← h2]
          subst hlt
          rcases ho2 with h | h <;> exact Ordering.noConfusion h
        · -- eq, eq
          have hxz := L.eq_trans hxy hyz
          have h1' : lexPadCmp f d a.tail b.tail = o1 := h1
          have h2' : lexPadCmp f d b.tail c.tail = o2 := h2
          have ihres := ih a.tail b.tail c.tail htails o1 o2 ho1 ho2 h1' h2'
          rcases hgoalstep with ⟨ha, hc⟩ | hstep
          · subst ha
            subst hc
            simpa using ihres
          · rw [hstep, hxz]
            exact ihres
        · -- eq, gt
          have hgt : o2 = Ordering.gt := by rw [← h2]
          subst hgt
          have hxz := L.eq_gt hxy hyz
          have hcombo : comboOrd o1 Ordering.gt = Ordering.gt := by
            rcases ho1 with h | h <;> subst h <;> rfl
          rw [hcombo]
          rcases hgoalstep with ⟨ha, hc⟩ | hstep
          · subst ha
            subst hc
            rw [List.headD_nil] at hxz
            rw [L.refl d] at hxz
            exact absurd hxz (by decide)
          · rw [hstep, hxz]
        · have hlt : o2 = Ordering.lt := by rw [← h2]
          subst hlt
          rcases ho2 with h | h <;> exact Ordering.noConfusion h
        · -- gt, eq
          have hgt : o1 = Ordering.gt := by rw [← h1]
          subst hgt
          have hxz := L.gt_eq hxy hyz
          have hcombo : comboOrd Ordering.gt o2 = Ordering.gt := by
            rcases ho2 with h | h <;> subst h <;> rfl
          rw [hcombo]
          rcases hgoalstep with ⟨ha, hc⟩ | hstep
          · subst ha
            subst hc
            rw [List.headD_nil] at hxz
            rw [L.refl d] at hxz
            exact absurd hxz (by decide)
          · rw [hstep, hxz]
        · -- gt, gt
          have hgt : o1 = Ordering.gt := by rw [← h1]
          subst hgt
          have hxz := L.gt_trans hxy hyz
          have hcombo : comboOrd Ordering.gt o2 = Ordering.gt := by
            rcases ho2 with h | h <;> subst h <;> rfl
          rw [hcombo]
          rcases hgoalstep with ⟨ha, hc⟩ | hstep
          · subst ha
            subst hc
            rw [List.headD_nil] at hxz
            rw [L.refl d] at hxz
            exact absurd hxz (by decide)
          · rw [hstep, hxz]

theorem cmpLaws_lexPadCmp {α : Type} {f : α → α → Ordering} {d : α}
    (L : CmpLaws f) : CmpLaws (lexPadCmp f d) := by
  refine ⟨lexPadCmp_refl L, lexPadCmp_symm L, ?_, ?_, ?_, ?_⟩
  · intro x y z h1 h2
    simpa [comboOrd] using lexPadCmp_comb L (x.length + y.length + z.length) x y z
      (Nat.le_refl _) Ordering.eq Ordering.eq (Or.inl rfl) (Or.inl rfl) h1 h2
  · intro x y z h1 h2
    simpa [comboOrd] using lexPadCmp_comb L (x.length + y.length + z.length) x y z
      (Nat.le_refl _) Ordering.gt Ordering.gt (Or.inr rfl) (Or.inr rfl) h1 h2
  · intro x y z h1 h2
    simpa [comboOrd] using lexPadCmp_comb L (x.length + y.length + z.length) x y z
      (Nat.le_refl _) Ordering.eq Ordering.gt (Or.inl rfl) (Or.inr rfl) h1 h2
  · intro x y z h1 h2
    simpa [comboOrd] using lexPadCmp_comb L (x.length + y.length + z.length) x y z
      (Nat.le_refl _) Ordering.gt Ordering.eq (Or.inr rfl) (Or.inl rfl) h1 h2

theorem cmpLaws_lexProdCmp {α β : Type} {f : α → α → Ordering}
    {g : β → β → Ordering} (Lf : CmpLaws f) (Lg : CmpLaws g) :
    CmpLaws (lexProdCmp f g) := by
  have keyE : ∀ (p q : α × β), lexProdCmp f g p q = Ordering.eq ↔
      f p.1 q.1 = Ordering.eq ∧ g p.2 q.2 = Ordering.eq := by
    intro p q
    unfold lexProdCmp
    cases hf : f p.1 q.1 <;> simp
  have keyG : ∀ (p q : α × β), lexProdCmp f g p q = Ordering.gt ↔
      f p.1 q.1 = Ordering.gt ∨
        (f p.1 q.1 = Ordering.eq ∧ g p.2 q.2 = Ordering.gt) := by
    intro p q
    unfold lexProdCmp
    cases hf : f p.1 q.1 <;> simp
  refine ⟨?_, ?_, ?_, ?_, ?_, ?_⟩
  · intro p
    rw [keyE]
    exact ⟨Lf.refl _, Lg.refl _⟩
  · intro p q
    unfold lexProdCmp
    have hf : f q.1 p.1 = (f p.1 q.1).swap := (Lf.symm p.1 q.1).symm
    cases hfc : f p.1 q.1 <;> rw [hfc] at hf <;> rw [hf]
    · rfl
    · exact Lg.symm p.2 q.2
    · rfl
  · intro x y z h1 h2
    rw [keyE] at *
    exact ⟨Lf.eq_trans h1.1 h2.1, Lg.eq_trans h1.2 h2.2⟩
  · intro x y z h1 h2
    rw [keyG] at *
    rcases h1 with h1 | ⟨h1e, h1g⟩ <;> rcases h2 with h2 | ⟨h2e, h2g⟩
    · exact Or.inl (Lf.gt_trans h1 h2)
    · exact Or.inl (Lf.gt_eq h1 h2e)
    · exact Or.inl (Lf.eq_gt h1e h2)
    · exact Or.inr ⟨Lf.eq_trans h1e h2e, Lg.gt_trans h1g h2g⟩
  · intro x y z h1 h2
    rw [keyE] at h1
    rw [keyG] at *
    rcases h2 with h2 | ⟨h2e, h2g⟩
    · exact Or.inl (Lf.eq_gt h1.1 h2)
    · exact Or.inr ⟨Lf.eq_trans h1.1 h2e, Lg.eq_gt h1.2 h2g⟩
  · intro x y z h1 h2
    rw [keyE] at h2
    rw [keyG] at *
    rcases h1 with h1 | ⟨h1e, h1g⟩
    · exact Or.inl (Lf.gt_eq h1 h2.1)
    · exact Or.inr ⟨Lf.eq_trans h1e h2.1, Lg.gt_eq h1g h2.2⟩

theorem cmpLaws_runCmp : CmpLaws runCmp := by
  show CmpLaws (fun a b : List Char =>
    lexPadCmp intCmp 0 (a.map charOrder) (b.map charOrder))
  exact cmpLaws_comap (fun l : List Char => l.map charOrder)
    (cmpLaws_lexPadCmp cmpLaws_intCmp)

theorem cmpLaws_pairCmp : CmpLaws pairCmp := by
  have h := cmpLaws_lexProdCmp cmpLaws_runCmp cmpLaws_natCmp
  exact ⟨h.refl, h.symm, fun a b => h.eq_trans a b, fun a b => h.gt_trans a b,
    fun a b => h.eq_gt a b, fun a b => h.gt_eq a b⟩

theorem cmpLaws_tokCmp : CmpLaws tokCmp :=
  cmpLaws_lexPadCmp cmpLaws_pairCmp

theorem cmpLaws_debCompare : CmpLaws debCompare :=
  cmpLaws_comap parseVersion
    (cmpLaws_lexProdCmp cmpLaws_natCmp (cmpLaws_lexProdCmp cmpLaws_tokCmp cmpLaws_tokCmp))

theorem cmpLaws_strCmp : CmpLaws strCmp := by
  show CmpLaws (fun a b : String =>
    lexPadCmp intCmp (-1) (a.data.map (fun c => Int.ofNat c.toNat))
      (b.data.map (fun c => Int.ofNat c.toNat)))
  exact cmpLaws_comap (fun s : String => s.data.map (fun c => Int.ofNat c.toNat))
    (cmpLaws_lexPadCmp cmpLaws_intCmp)

theorem cmpLaws_pyKeyCmp : CmpLaws pyKeyCmp :=
  cmpLaws_comap _pkg_sort_key (cmpLaws_lexProdCmp cmpLaws_debCompare cmpLaws_strCmp)

/-! ## Selection lemmas -/

theorem mem_insert_desc {z x : PackageRecord} :
    ∀ (l : List PackageRecord), z ∈ _insert_desc x l ↔ z = x ∨ z ∈ l := by
  intro l
  induction l with
  | nil => simp [_insert_desc]
  | cons y ys ih =>
    unfold _insert_desc
    split_ifs with h
    · simp [List.mem_cons]
    · simp only [List.mem_cons, ih]
      tauto

theorem insert_desc_headmax (x : PackageRecord) (l : List PackageRecord)
    (hl : ∀ h, l.head? = some h → ∀ z ∈ l, pyKeyCmp z h ≠ Ordering.gt) :
    ∀ h, (_insert_desc x l).head? = some h →
      ∀ z ∈ _insert_desc x l, pyKeyCmp z h ≠ Ordering.gt := by
  have K := cmpLaws_pyKeyCmp
  cases l with
  | nil =>
    intro h hh z hz
    simp [_insert_desc] at hh hz
    subst hh
    subst hz
    rw [K.refl]
    decide
  | cons y ys =>
    unfold _insert_desc
    split_ifs with hxy
    · intro h hh z hz
      simp only [List.head?_cons, Option.some.injEq] at hh
      subst hh
      rcases List.mem_cons.mp hz with hzx | hz'
      · subst hzx
        rw [K.refl]
        decide
      · rcases List.mem_cons.mp hz' with hzy | hzys
        · subst hzy
          intro hg
          have := K.gt_trans hg hxy
          rw [K.refl] at this
          exact Ordering.noConfusion this
        · have hzy := hl y rfl z (List.mem_cons_of_mem y hzys)
          intro hg
          exact hzy (K.gt_trans hg hxy)
    · intro h hh z hz
      simp only [List.head?_cons, Option.some.injEq] at hh
      subst hh
      rcases List.mem_cons.mp hz with hzy | hz'
      · subst hzy
        rw [K.refl]
        decide
      · rcases (mem_insert_desc ys).mp hz' with hzx | hzys
        · subst hzx
          exact hxy
        · exact hl y rfl z (List.mem_cons_of_mem y hzys)

theorem sorted_desc_foldl_mem {z : PackageRecord} :
    ∀ (l acc : List PackageRecord),
      z ∈ l.foldl (fun a p => _insert_desc p a) acc ↔ z ∈ acc ∨ z ∈ l := by
  intro l
  induction l with
  | nil => simp
  | cons x xs ih =>
    intro acc
    simp only [List.foldl_cons, ih, mem_insert_desc, List.mem_cons]
    tauto

theorem sorted_desc_foldl_headmax :
    ∀ (l acc : List PackageRecord),
      (∀ h, acc.head? = some h → ∀ z ∈ acc, pyKeyCmp z h ≠ Ordering.gt) →
      ∀ h, (l.foldl (fun a p => _insert_desc p a) acc).head? = some h →
        ∀ z ∈ l.foldl (fun a p => _insert_desc p a) acc,
          pyKeyCmp z h ≠ Ordering.gt := by
  intro l
  induction l with
  | nil =>
    intro acc hacc
    exact hacc
  | cons x xs ih =>
    intro acc hacc
    simp only [List.foldl_cons]
    exact ih (_insert_desc x acc) (insert_desc_headmax x acc hacc)

theorem select_best_mem {l : List PackageRecord} {r : PackageRecord}
    (h : _select_best_candidate l = some r) : r ∈ l := by
  unfold _select_best_candidate _sorted_desc at h
  cases hs : l.foldl (fun a p => _insert_desc p a) [] with
  | nil =>
    rw [hs] at h
    exact Option.noConfusion h
  | cons a t =>
    rw [hs] at h
    simp only [List.head?_cons, Option.some.injEq] at h
    have hma : a ∈ l.foldl (fun a p => _insert_desc p a) [] := by
      rw [hs]
      exact List.mem_cons_self a t
    rcases (sorted_desc_foldl_mem l []).mp hma with h' | h'
    · exact absurd h' (List.not_mem_nil a)
    · rw [← h]
      exact h'

theorem select_best_max {l : List PackageRecord} {r : PackageRecord}
    (h : _select_best_candidate l = some r) :
    ∀ x ∈ l, pyKeyCmp x r ≠ Ordering.gt := by
  intro x hx
  unfold _select_best_candidate _sorted_desc at h
  have hmem : x ∈ l.foldl (fun a p => _insert_desc p a) [] :=
    (sorted_desc_foldl_mem l []).mpr (Or.inr hx)
  exact sorted_desc_foldl_headmax l [] (by intro h hh; simp at hh) r h x hmem

/-! ## Resolver lemmas -/

theorem list_contains_mem {α : Type} [BEq α] [LawfulBEq α] {l : List α} {a : α} :
    l.contains a = true ↔ a ∈ l := by
  simp [List.contains]

theorem resolve_single_atom_inv {atom : DepAtom} {target_arch : String}
    {pkgs_by_name provides_index : PkgIndex} {r : PackageRecord}
    (h : resolve_single_atom atom target_arch pkgs_by_name provides_index = some r) :
    (_candidate_arches_for_atom atom target_arch).contains r.arch = true ∧
      (r ∈ idxGet pkgs_by_name atom.name ∨ r ∈ idxGet provides_index atom.name) := by
  unfold resolve_single_atom at h
  split_ifs at h with hgate h1 h2
  · have hmem := select_best_mem h
    unfold _direct_matches at hmem
    rcases List.mem_filter.mp hmem with ⟨hin, hp⟩
    rw [Bool.and_eq_true] at hp
    exact ⟨hp.1, Or.inl hin⟩
  · have hmem := select_best_mem h
    unfold _provider_matches at hmem
    rcases List.mem_filter.mp hmem with ⟨hin, hp⟩
    rw [Bool.and_eq_true] at hp
    exact ⟨hp.1, Or.inr hin⟩

/-! ## Walk lemmas -/

theorem idxGet_subset_records {m : PkgIndex} {k : String} {r : PackageRecord}
    (h : r ∈ idxGet m k) : r ∈ idxRecords m := by
  induction m with
  | nil => simp [idxGet] at h
  | cons kv rest ih =>
    rcases kv with ⟨k', v⟩
    unfold idxGet at h
    have hrec : idxRecords ((k', v) :: rest) = v ++ idxRecords rest := by
      simp [idxRecords]
    rw [hrec]
    by_cases hk : k' = k
    · rw [if_pos hk] at h
      exact List.mem_append_left _ h
    · rw [if_neg hk] at h
      exact List.mem_append_right _ (ih h)

theorem resolve_single_atom_mem_universe {atom : DepAtom} {target_arch : String}
    {pkgs_by_name provides_index : PkgIndex} {r : PackageRecord}
    (h : resolve_single_atom atom target_arch pkgs_by_name provides_index = some r) :
    r ∈ walkUniverse pkgs_by_name provides_index := by
  unfold walkUniverse
  rcases (resolve_single_atom_inv h).2 with hm | hm
  · exact List.mem_append_left _ (idxGet_subset_records hm)
  · exact List.mem_append_right _ (idxGet_subset_records hm)

theorem resolve_dep_alternatives_ok_mem {alt_group : List DepAtom}
    {target_arch : String} {pkgs_by_name provides_index : PkgIndex}
    {r : PackageRecord}
    (h : resolve_dep_alternatives alt_group target_arch pkgs_by_name provides_index =
      Except.ok r) :
    r ∈ walkUniverse pkgs_by_name provides_index := by
  unfold resolve_dep_alternatives at h
  cases hf : alt_group.findSome?
      (fun atom => resolve_single_atom atom target_arch pkgs_by_name provides_index) with
  | none =>
    rw [hf] at h
    exact Except.noConfusion h
  | some p =>
    rw [hf] at h
    have hpr : p = r := by
      injection h
    obtain ⟨a, _, hres⟩ := List.exists_of_findSome?_eq_some hf
    rw [← hpr]
    exact resolve_single_atom_mem_universe hres

theorem resolve_groups_ok {target_arch : String}
    {pkgs_by_name provides_index : PkgIndex} :
    ∀ {gs : List (List DepAtom)} {chosen : List PackageRecord},
      _resolve_groups target_arch pkgs_by_name provides_index gs = Except.ok chosen →
      chosen.length = gs.length ∧
        ∀ c ∈ chosen, c ∈ walkUniverse pkgs_by_name provides_index := by
  intro gs
  induction gs with
  | nil =>
    intro chosen h
    unfold _resolve_groups at h
    have : chosen = [] := by
      injection h with h'
      exact h'.symm
    subst this
    exact ⟨rfl, by simp⟩
  | cons g gs ih =>
    intro chosen h
    unfold _resolve_groups at h
    cases h1 : resolve_dep_alternatives g target_arch pkgs_by_name provides_index with
    | error e =>
      rw [h1] at h
      exact Except.noConfusion h
    | ok c =>
      rw [h1] at h
      cases h2 : _resolve_groups target_arch pkgs_by_name provides_index gs with
      | error e =>
        rw [h2] at h
        exact Except.noConfusion h
      | ok rest =>
        rw [h2] at h
        have : c :: rest = chosen := by
          injection h
        subst this
        rcases ih h2 with ⟨hlen, hmem⟩
        constructor
        · simp [hlen]
        · intro x hx
          rcases List.mem_cons.mp hx with hxc | hxr
          · rw [hxc]
            exact resolve_dep_alternatives_ok_mem h1
          · exact hmem x hxr

theorem maxGroupCount_le {deps : PackageRecord → List (List DepAtom)}
    {r : PackageRecord} :
    ∀ {U : List PackageRecord}, r ∈ U → (deps r).length ≤ maxGroupCount deps U := by
  intro U
  induction U with
  | nil => intro h; simp at h
  | cons u us ih =>
    intro h
    unfold maxGroupCount
    rcases List.mem_cons.mp h with hu | hus
    · rw [hu]
      exact Nat.le_max_left _ _
    · exact Nat.le_trans (ih hus) (Nat.le_max_right _ _)

theorem unvisitedKeyCount_lt {pkgs_by_name provides_index : PkgIndex}
    {visited : List PkgKey} {pkg : PackageRecord}
    (hmem : pkg ∈ walkUniverse pkgs_by_name provides_index)
    (hnv : pkgKey pkg ∉ visited) :
    unvisitedKeyCount pkgs_by_name provides_index (pkgKey pkg :: visited) <
      unvisitedKeyCount pkgs_by_name provides_index visited := by
  unfold unvisitedKeyCount
  have hkey : pkgKey pkg ∈ ((walkUniverse pkgs_by_name provides_index).map pkgKey).dedup :=
    List.mem_dedup.mpr (List.mem_map_of_mem pkgKey hmem)
  have heq : (((walkUniverse pkgs_by_name provides_index).map pkgKey).dedup).filter
      (fun k => decide (k ∉ pkgKey pkg :: visited)) =
      ((((walkUniverse pkgs_by_name provides_index).map pkgKey).dedup).filter
        (fun k => decide (k ∉ visited))).filter
        (fun k => decide (k ≠ pkgKey pkg)) := by
    rw [List.filter_filter]
    apply List.filter_congr
    intro x _
    by_cases h1 : x = pkgKey pkg <;> by_cases h2 : x ∈ visited <;>
      simp [List.mem_cons, h1, h2]
  rw [heq]
  apply List.length_filter_lt_length_iff_exists.mpr
  refine ⟨pkgKey pkg, List.mem_filter.mpr ⟨hkey, by simp [hnv]⟩, by simp⟩

theorem walkAux_spec (deps : PackageRecord → List (List DepAtom))
    (target_arch : String) (pkgs_by_name provides_index : PkgIndex) :
    ∀ (fuel : Nat) (stack : List PackageRecord) (visited : List PkgKey)
      (processed : List PackageRecord),
      (∀ p ∈ stack, p ∈ walkUniverse pkgs_by_name provides_index) →
      (processed.map pkgKey).Nodup →
      (∀ p ∈ processed, pkgKey p ∈ visited) →
      stack.length +
        (maxGroupCount deps (walkUniverse pkgs_by_name provides_index) + 1) *
          unvisitedKeyCount pkgs_by_name provides_index visited < fuel →
      walkAux deps target_arch pkgs_by_name provides_index fuel stack visited
          processed ≠ WalkResult.outOfFuel ∧
        (∀ v pr, walkAux deps target_arch pkgs_by_name provides_index fuel stack
            visited processed = WalkResult.done v pr → (pr.map pkgKey).Nodup) := by
  intro fuel
  induction fuel with
  | zero =>
    intro stack visited processed _ _ _ hbound
    exact absurd hbound (Nat.not_lt_zero _)
  | succ fuel ih =>
    intro stack visited processed hstack hnodup hpv hbound
    rcases stack with _ | ⟨pkg, rest⟩
    · constructor
      · intro hc
        exact WalkResult.noConfusion
          (show WalkResult.done visited processed = WalkResult.outOfFuel from hc)
      · intro v pr h
        have h' : WalkResult.done visited processed = WalkResult.done v pr := h
        injection h' with _ h2
        rw [← h2]
        exact hnodup
    · by_cases hv : pkgKey pkg ∈ visited
      · have heq : walkAux deps target_arch pkgs_by_name provides_index (fuel + 1)
            (pkg :: rest) visited processed =
            walkAux deps target_arch pkgs_by_name provides_index fuel rest visited
              processed := by
          simp only [walkAux, hv, if_true]
        rw [heq]
        apply ih rest visited processed
          (fun p hp => hstack p (List.mem_cons_of_mem _ hp)) hnodup hpv
        generalize hX : (maxGroupCount deps (walkUniverse pkgs_by_name provides_index) + 1) *
          unvisitedKeyCount pkgs_by_name provides_index visited = X at hbound ⊢
        simp only [List.length_cons] at hbound
        omega
      · have heq : walkAux deps target_arch pkgs_by_name provides_index (fuel + 1)
            (pkg :: rest) visited processed =
            (match _resolve_groups target_arch pkgs_by_name provides_index (deps pkg) with
             | Except.error e => WalkResult.fatal e
             | Except.ok chosen =>
               walkAux deps target_arch pkgs_by_name provides_index fuel
                 (chosen.reverse ++ rest) (pkgKey pkg :: visited)
                 (processed ++ [pkg])) := by
          simp only [walkAux, hv, if_false]
        rw [heq]
        cases hr : _resolve_groups target_arch pkgs_by_name provides_index (deps pkg) with
        | error e =>
          constructor
          · intro hc
            exact WalkResult.noConfusion
              (show WalkResult.fatal e = WalkResult.outOfFuel from hc)
          · intro v pr h
            exact WalkResult.noConfusion
              (show WalkResult.fatal e = WalkResult.done v pr from h)
        | ok chosen =>
          have hpkgU : pkg ∈ walkUniverse pkgs_by_name provides_index :=
            hstack pkg (List.mem_cons_self _ _)
          obtain ⟨hclen, hcmem⟩ := resolve_groups_ok hr
          have hstack' : ∀ p ∈ chosen.reverse ++ rest,
              p ∈ walkUniverse pkgs_by_name provides_index := by
            intro p hp
            rcases List.mem_append.mp hp with hp | hp
            · exact hcmem p (List.mem_reverse.mp hp)
            · exact hstack p (List.mem_cons_of_mem _ hp)
          have hnodup' : ((processed ++ [pkg]).map pkgKey).Nodup := by
            rw [List.map_append]
            rw [List.nodup_append]
            refine ⟨hnodup, List.nodup_singleton _, ?_⟩
            intro a ha hb
            simp only [List.map_cons, List.map_nil, List.mem_singleton] at hb
            subst hb
            rcases List.mem_map.mp ha with ⟨q, hq, hqk⟩
            exact hv (hqk ▸ hpv q hq)
          have hpv' : ∀ p ∈ processed ++ [pkg], pkgKey p ∈ pkgKey pkg :: visited := by
            intro p hp
            rcases List.mem_append.mp hp with hp | hp
            · exact List.mem_cons_of_mem _ (hpv p hp)
            · simp only [List.mem_singleton] at hp
              subst hp
              exact List.mem_cons_self _ _
          have hbound' : (chosen.reverse ++ rest).length +
              (maxGroupCount deps (walkUniverse pkgs_by_name provides_index) + 1) *
                unvisitedKeyCount pkgs_by_name provides_index (pkgKey pkg :: visited) <
              fuel := by
            have hclenM : chosen.length ≤
                maxGroupCount deps (walkUniverse pkgs_by_name provides_index) := by
              rw [hclen]
              exact maxGroupCount_le hpkgU
            have hRlt := unvisitedKeyCount_lt hpkgU hv
            have hmul : (maxGroupCount deps (walkUniverse pkgs_by_name provides_index) + 1) *
                unvisitedKeyCount pkgs_by_name provides_index (pkgKey pkg :: visited) +
                (maxGroupCount deps (walkUniverse pkgs_by_name provides_index) + 1) ≤
                (maxGroupCount deps (walkUniverse pkgs_by_name provides_index) + 1) *
                  unvisitedKeyCount pkgs_by_name provides_index visited := by
              rw [← Nat.mul_succ]
              exact Nat.mul_le_mul_left _ hRlt
            simp only [List.length_append, List.length_reverse, List.length_cons] at hbound ⊢
            generalize hX : (maxGroupCount deps (walkUniverse pkgs_by_name provides_index) + 1) *
              unvisitedKeyCount pkgs_by_name provides_index (pkgKey pkg :: visited) = X
              at hmul ⊢
            generalize hY : (maxGroupCount deps (walkUniverse pkgs_by_name provides_index) + 1) *
              unvisitedKeyCount pkgs_by_name provides_index visited = Y at hmul hbound
            omega
          exact ih (chosen.reverse ++ rest) (pkgKey pkg :: visited) (processed ++ [pkg])
            hstack' hnodup' hpv' hbound'

/-! ## Claim theorems -/

/-- C8: `version_satisfies(v, "=", v)` is true for every version string
(equality under the Debian comparator is reflexive), and the check returns
true whenever the operator is absent. -/
theorem version_satisfies_refl_and_absent_op :
    (∀ v : String, _version_satisfies v (some "=") (some v) = true) ∧
    (∀ (candidate : String) (needed : Option String),
      _version_satisfies candidate none needed = true) := by
  constructor
  · intro v
    simp [_version_satisfies, cmpLaws_debCompare.refl v]
  · intro c n
    cases n <;> rfl

/-- C7 (code bug): the dependency atom `foo:any <!nocheck>` carries a
build-profile annotation, yet parsing does not raise — the `<!nocheck>`
fragment is silently absorbed into the arch qualifier field. -/
theorem parse_profile_fragment_not_fatal :
    _parse_single_dep_atom "foo:any <!nocheck>" =
      Except.ok ⟨"foo", some "any <!nocheck>", none, none, []⟩ := by
  rfl

/-- C9: the dependency-field parser never raises on empty segments — the
empty field parses to no groups, whitespace-only fields and leading,
trailing or doubled commas and bars are silently dropped, and every group
of any successful parse is non-empty. -/
theorem parse_dep_field_tolerates_empty_segments :
    parse_dep_field "" = Except.ok [] ∧
    parse_dep_field "   " = Except.ok [] ∧
    parse_dep_field ",  , foo | | bar,, " =
      Except.ok [[⟨"foo", none, none, none, []⟩, ⟨"bar", none, none, none, []⟩]] ∧
    (∀ (s : String) (gs : List (List DepAtom)),
      parse_dep_field s = Except.ok gs → ∀ g ∈ gs, g ≠ []) := by
  refine ⟨rfl, rfl, rfl, ?_⟩
  intro s gs h g hg
  unfold parse_dep_field at h
  split_ifs at h with hs
  · have hgs : gs = [] := by
      injection h with h'
      exact h'.symm
    subst hgs
    simp at hg
  · split at h
    · exact Except.noConfusion h
    · injection h with h'
      rw [← h'] at hg
      rcases List.mem_filter.mp hg with ⟨_, hp⟩
      intro hgnil
      rw [hgnil] at hp
      simp at hp

/-- C9 witness: a concrete field with empty segments parses, and the
resulting group is non-empty. -/
theorem parse_dep_field_tolerates_empty_segments_witness :
    parse_dep_field ",foo," = Except.ok [[⟨"foo", none, none, none, []⟩]] ∧
    ([(⟨"foo", none, none, none, []⟩ : DepAtom)] : List DepAtom) ≠ [] :=
  ⟨rfl, parse_dep_field_tolerates_empty_segments.2.2.2 ",foo,"
    [[⟨"foo", none, none, none, []⟩]] rfl _ (by simp)⟩

/-- C1 counterexample: a dependency group whose only atom carries an
`[amd64 i386]` restriction, resolved for target `arm64` (every atom
not applicable), nevertheless raises a fatal error — refuting the claim
that an entirely-not-applicable group raises no error. -/
theorem all_inapplicable_group_raises_counterexample :
    resolutionSucceeded (resolve_dep_alternatives
      [⟨"zlib1g", none, none, none, ["amd64", "i386"]⟩] "arm64" [] []) = false := by
  rfl

/-- C1 (amended): whenever no atom of a dependency group resolves — whether
the atoms are unsatisfiable or merely not applicable on the target
architecture (the resolver collapses both into `none`) — the alternative
resolver raises a fatal error and contributes no chosen record.  In
particular an entirely-not-applicable group also raises, contrary to the
original claim. -/
theorem alt_group_no_resolution_is_fatal :
    ∀ (alt_group : List DepAtom) (target_arch : String)
      (pkgs_by_name provides_index : PkgIndex),
      (∀ atom ∈ alt_group,
        resolve_single_atom atom target_arch pkgs_by_name provides_index = none) →
      resolutionSucceeded (resolve_dep_alternatives alt_group target_arch
        pkgs_by_name provides_index) = false := by
  intro alt_group target_arch pkgs_by_name provides_index h
  unfold resolve_dep_alternatives
  rw [List.findSome?_eq_none_iff.mpr h]
  rfl

/-- C1 witness: a concrete group whose single atom is restricted to
`amd64` is fatal on `arm64`. -/
theorem alt_group_no_resolution_is_fatal_witness :
    (∀ atom ∈ ([⟨"only-amd64-pkg", none, none, none, ["amd64"]⟩] : List DepAtom),
      resolve_single_atom atom "arm64" [] [] = none) ∧
    resolutionSucceeded (resolve_dep_alternatives
      [⟨"only-amd64-pkg", none, none, none, ["amd64"]⟩] "arm64" [] []) = false :=
  ⟨by decide, alt_group_no_resolution_is_fatal _ _ _ _ (by decide)⟩

/-- C4: the provided-version check accepts unconditionally without a
constraint, compares a declared `Provides` version when one is present,
falls back to the provider's own version otherwise, and the versioned
Provides scenario `foo (>= 2.0)` against `bar` with `Provides: foo (= 2.1)`
resolves to `bar`. -/
theorem provided_version_check_correct :
    (∀ (P : PackageRecord) (V : String) (n : Option String),
      _provided_version_satisfies P V none n = true) ∧
    (∀ (P : PackageRecord) (V o : String),
      _provided_version_satisfies P V (some o) none = true) ∧
    (∀ (P : PackageRecord) (V o n d : String),
      (P.provides_map.lookup V).join = some d → d ≠ "" →
      _provided_version_satisfies P V (some o) (some n) =
        _version_satisfies d (some o) (some n)) ∧
    (∀ (P : PackageRecord) (V o n : String),
      (P.provides_map.lookup V).join = none →
      _provided_version_satisfies P V (some o) (some n) =
        _version_satisfies P.version (some o) (some n)) ∧
    resolve_single_atom ⟨"foo", none, some ">=", some "2.0", []⟩ "arm64" barPkgs
      barProvides = some barRecord := by
  refine ⟨?_, ?_, ?_, ?_, rfl⟩
  · intro P V n
    cases n <;> rfl
  · intro P V o
    rfl
  · intro P V o n d hj hd
    simp only [_provided_version_satisfies, hj]
    rw [if_pos hd]
  · intro P V o n hj
    simp only [_provided_version_satisfies, hj]

/-- C4 witness: the declared-Provides branch at the concrete scenario. -/
theorem provided_version_check_correct_witness :
    (barRecord.provides_map.lookup "foo").join = some "2.1" ∧
    ("2.1" : String) ≠ "" ∧
    _provided_version_satisfies barRecord "foo" (some ">=") (some "2.0") =
      _version_satisfies "2.1" (some ">=") (some "2.0") :=
  ⟨by decide, by decide,
    provided_version_check_correct.2.2.1 barRecord "foo" ">=" "2.0" "2.1"
      (by decide) (by decide)⟩

/-- C2: every record returned by the atom resolver has an architecture
drawn from the atom's candidate set — `{target, "all"}` for unqualified,
`:any` and `:native` atoms, and exactly `A` for a literal qualifier `:A`
(so an `Architecture: all` record can never satisfy a literal-arch atom
with `A ≠ "all"`, whatever its version). -/
theorem resolved_record_arch_sound :
    ∀ (atom : DepAtom) (target_arch : String)
      (pkgs_by_name provides_index : PkgIndex) (r : PackageRecord),
      resolve_single_atom atom target_arch pkgs_by_name provides_index = some r →
      ((atom.arch_qual = none ∨ atom.arch_qual = some "any" ∨
          atom.arch_qual = some "native") →
        (r.arch = target_arch ∨ r.arch = "all")) ∧
      (∀ A, atom.arch_qual = some A → A ≠ "any" → A ≠ "native" → r.arch = A) := by
  intro atom target_arch pkgs_by_name provides_index r h
  have hmem : r.arch ∈ _candidate_arches_for_atom atom target_arch :=
    list_contains_mem.mp (resolve_single_atom_inv h).1
  constructor
  · intro hq
    rcases hq with h0 | h0 | h0 <;> simp [_candidate_arches_for_atom, h0] at hmem <;>
      exact hmem
  · intro A hA hAny hNative
    simp [_candidate_arches_for_atom, hA, hAny, hNative] at hmem
    exact hmem

/-- C2 witness: the atom `mypkg:arm64` against an index holding a newer
`Architecture: all` record and an older `arm64` record resolves to the
`arm64` record, whose arch equals the literal qualifier. -/
theorem resolved_record_arch_sound_witness :
    resolve_single_atom ⟨"mypkg", some "arm64", none, none, []⟩ "arm64" myPkgs [] =
      some myArmRecord ∧
    myArmRecord.arch = "arm64" :=
  ⟨by rfl,
    (resolved_record_arch_sound ⟨"mypkg", some "arm64", none, none, []⟩ "arm64"
      myPkgs [] myArmRecord (by rfl)).2 "arm64" rfl (by decide) (by decide)⟩

/-- C5: best-candidate selection returns a member of the candidate list
whose `(Debian version, source_hint)` key is maximal (no candidate
compares strictly greater); selection is total on non-empty lists — and
therefore a deterministic function of the list — and a version tie is
broken in favour of the larger `source_hint`. -/
theorem select_best_candidate_maximal :
    (∀ (candidates : List PackageRecord) (r : PackageRecord),
      _select_best_candidate candidates = some r →
      r ∈ candidates ∧ ∀ x ∈ candidates, pyKeyCmp x r ≠ Ordering.gt) ∧
    (∀ candidates : List PackageRecord, candidates ≠ [] →
      ∃ r, _select_best_candidate candidates = some r) ∧
    (∀ a b : PackageRecord, debCompare a.version b.version = Ordering.eq →
      strCmp a.source_hint b.source_hint = Ordering.lt →
      _select_best_candidate [a, b] = some b ∧
        _select_best_candidate [b, a] = some b) := by
  refine ⟨?_, ?_, ?_⟩
  · intro candidates r h
    exact ⟨select_best_mem h, select_best_max h⟩
  · intro candidates hne
    rcases candidates with _ | ⟨c, cs⟩
    · exact absurd rfl hne
    · have hmem : c ∈ _sorted_desc (c :: cs) :=
        (sorted_desc_foldl_mem (c :: cs) []).mpr (Or.inr (List.mem_cons_self c cs))
      rcases hsd : _sorted_desc (c :: cs) with _ | ⟨x, t⟩
      · rw [hsd] at hmem
        exact absurd hmem (List.not_mem_nil c)
      · refine ⟨x, ?_⟩
        unfold _select_best_candidate
        rw [hsd]
        rfl
  · intro a b hv hs
    have hab : pyKeyCmp a b = Ordering.lt := by
      unfold pyKeyCmp lexProdCmp _pkg_sort_key
      rw [hv]
      exact hs
    have hba : pyKeyCmp b a = Ordering.gt := by
      rw [← cmpLaws_pyKeyCmp.symm a b, hab]
      rfl
    have hnab : ¬pyKeyCmp a b = Ordering.gt := by
      rw [hab]
      decide
    have h1 : _insert_desc a ([] : List PackageRecord) = [a] := rfl
    have h2 : _insert_desc b [a] = [b, a] := by
      unfold _insert_desc
      rw [if_pos hba]
    have h3 : _insert_desc b ([] : List PackageRecord) = [b] := rfl
    have h4 : _insert_desc a [b] = [b, a] := by
      unfold _insert_desc
      rw [if_neg hnab]
      rfl
    constructor
    · show (_insert_desc b (_insert_desc a [])).head? = some b
      rw [h1, h2]
      rfl
    · show (_insert_desc a (_insert_desc b [])).head? = some b
      rw [h3, h4]
      rfl

/-- C5 witness: maximality and the tie-break at concrete record lists. -/
theorem select_best_candidate_maximal_witness :
    _select_best_candidate [tieARecord, tieBRecord] = some tieBRecord ∧
    tieBRecord ∈ [tieARecord, tieBRecord] ∧
    pyKeyCmp tieARecord tieBRecord ≠ Ordering.gt :=
  ⟨(select_best_candidate_maximal.2.2 tieARecord tieBRecord (by rfl) (by rfl)).1,
    (select_best_candidate_maximal.1 [tieARecord, tieBRecord] tieBRecord
      (by rfl)).1,
    (select_best_candidate_maximal.1 [tieARecord, tieBRecord] tieBRecord
      (by rfl)).2 tieARecord (by simp)⟩

/-- C6: the alternative resolver returns the record of the leftmost atom
that resolves (earlier atoms returning `none` — not applicable or
unsatisfied — are passed over), and the concrete group
`default-dbus-session-bus | dbus-session-bus` against an index holding
only the real `dbus-session-bus` (which provides the virtual name)
resolves without error to `dbus-session-bus` via its first atom. -/
theorem alternatives_leftmost_first_resolves :
    (∀ (pre : List DepAtom) (atom : DepAtom) (post : List DepAtom)
       (target_arch : String) (pkgs_by_name provides_index : PkgIndex)
       (r : PackageRecord),
      (∀ a ∈ pre,
        resolve_single_atom a target_arch pkgs_by_name provides_index = none) →
      resolve_single_atom atom target_arch pkgs_by_name provides_index = some r →
      resolve_dep_alternatives (pre ++ atom :: post) target_arch pkgs_by_name
        provides_index = Except.ok r) ∧
    resolve_dep_alternatives
      [⟨"default-dbus-session-bus", none, none, none, []⟩,
       ⟨"dbus-session-bus", none, none, none, []⟩] "arm64" dbusPkgs dbusProvides =
      Except.ok dbusRecord := by
  constructor
  · intro pre atom post target_arch pkgs_by_name provides_index r hpre hatom
    have hfind : (pre ++ atom :: post).findSome?
        (fun a => resolve_single_atom a target_arch pkgs_by_name provides_index) =
        some r := by
      induction pre with
      | nil => simp [List.findSome?_cons, hatom]
      | cons a pre' ih =>
        rw [List.cons_append, List.findSome?_cons, hpre a (List.mem_cons_self a pre')]
        exact ih (fun x hx => hpre x (List.mem_cons_of_mem a hx))
    unfold resolve_dep_alternatives
    rw [hfind]
  · rfl

/-- C6 witness: a leading unresolvable atom is passed over and the second
atom's record is returned. -/
theorem alternatives_leftmost_first_resolves_witness :
    (∀ a ∈ ([⟨"no-such-package", none, none, none, []⟩] : List DepAtom),
      resolve_single_atom a "arm64" dbusPkgs dbusProvides = none) ∧
    resolve_single_atom ⟨"dbus-session-bus", none, none, none, []⟩ "arm64" dbusPkgs
      dbusProvides = some dbusRecord ∧
    resolve_dep_alternatives
      ([⟨"no-such-package", none, none, none, []⟩] ++
        [(⟨"dbus-session-bus", none, none, none, []⟩ : DepAtom)]) "arm64" dbusPkgs
      dbusProvides = Except.ok dbusRecord :=
  ⟨by decide, by rfl,
    alternatives_leftmost_first_resolves.1 [⟨"no-such-package", none, none, none, []⟩]
      ⟨"dbus-session-bus", none, none, none, []⟩ [] "arm64" dbusPkgs dbusProvides
      dbusRecord (by decide) (by rfl)⟩

/-! ## Stanza lemmas -/

theorem takeWhile_append_all {p : Char → Bool} :
    ∀ {l1 l2 : List Char}, (∀ c ∈ l1, p c = true) →
      (l1 ++ l2).takeWhile p = l1 ++ l2.takeWhile p := by
  intro l1
  induction l1 with
  | nil =>
    intro l2 _
    rfl
  | cons c cs ih =>
    intro l2 h
    have hc : p c = true := h c (List.mem_cons_self c cs)
    simp only [List.cons_append, List.takeWhile_cons, hc, if_true]
    rw [ih (fun x hx => h x (List.mem_cons_of_mem c hx))]

theorem dropWhile_append_all {p : Char → Bool} :
    ∀ {l1 l2 : List Char}, (∀ c ∈ l1, p c = true) →
      (l1 ++ l2).dropWhile p = l2.dropWhile p := by
  intro l1
  induction l1 with
  | nil =>
    intro l2 _
    rfl
  | cons c cs ih =>
    intro l2 h
    have hc : p c = true := h c (List.mem_cons_self c cs)
    simp only [List.cons_append, List.dropWhile_cons, hc, if_true]
    exact ih (fun x hx => h x (List.mem_cons_of_mem c hx))

theorem dict_any_of_lookup_some {d : Stanza} {k v : List Char}
    (h : d.lookup k = some v) : d.any (fun kv => kv.1 == k) = true := by
  induction d with
  | nil => simp at h
  | cons kv rest ih =>
    rcases kv with ⟨a, b⟩
    rw [List.lookup_cons] at h
    by_cases hk : k = a
    · simp [List.any_cons, hk]
    · have hne : (k == a) = false := by
        simp [hk]
      rw [hne] at h
      simp only [List.any_cons, Bool.or_eq_true]
      exact Or.inr (ih h)

theorem dictSet_lookup_self {k v : List Char} :
    ∀ (d : Stanza), (dictSet d k v).lookup k = some v := by
  intro d
  unfold dictSet
  split_ifs with hany
  · induction d with
    | nil => simp at hany
    | cons kv rest ih =>
      rcases kv with ⟨a, b⟩
      by_cases hk : a = k
      · simp only [List.map_cons, if_pos hk]
        exact List.lookup_cons_self
      · simp only [List.map_cons, if_neg hk]
        rw [List.lookup_cons]
        have hne : (k == a) = false := by
          simp
          intro hc
          exact hk hc.symm
        rw [hne]
        apply ih
        simp only [List.any_cons, Bool.or_eq_true] at hany
        rcases hany with hc | hc
        · exact absurd (by simpa using hc) hk
        · exact hc
  · rw [List.lookup_append]
    have hnone : d.lookup k = none := by
      rw [List.lookup_eq_none_iff]
      intro kv hkv
      simp only [bne_iff_ne, ne_eq]
      intro hc
      have hb : (kv.1 == k) = true := by
        simp [hc]
      exact hany (List.any_eq_true.mpr ⟨kv, hkv, hb⟩)
    rw [hnone]
    simp

theorem dictSet_keys_of_present {k v : List Char} {d : Stanza}
    (hany : d.any (fun kv => kv.1 == k) = true) :
    (dictSet d k v).map Prod.fst = d.map Prod.fst := by
  unfold dictSet
  rw [if_pos hany, List.map_map]
  apply List.map_congr_left
  intro kv _
  by_cases hk : kv.1 = k
  · simp [hk]
  · simp [hk]

/-- C10: a key line whose field name is already present in the current
stanza raises no error; the stanza parser overwrites the earlier value in
place, so the stanza keeps exactly one entry for that key, now holding the
later occurrence's value. -/
theorem stanza_duplicate_field_overwrites :
    ∀ (stanzas : List Stanza) (current : Stanza) (k v1 v2 : List Char),
      current.lookup k = some v1 →
      k ≠ [] → k.contains ':' = false → startsWithSpaceTab k = false →
      pyStrip k = k → pyLStrip v2 = v2 →
      _parse_stanzas_step (stanzas, current) (k ++ ':' :: v2) =
        Except.ok (stanzas, dictSet current k v2) ∧
      (dictSet current k v2).lookup k = some v2 ∧
      (dictSet current k v2).map Prod.fst = current.map Prod.fst := by
  intro stanzas current k v1 v2 hlook hne hcol hsw hstrip hlstrip
  refine ⟨?_, dictSet_lookup_self current,
    dictSet_keys_of_present (dict_any_of_lookup_some hlook)⟩
  have hkchars : ∀ c ∈ k, (c != ':') = true := by
    intro c hc
    simp only [bne_iff_ne, ne_eq]
    intro hceq
    subst hceq
    have hcm := list_contains_mem.mpr hc
    rw [hcol] at hcm
    exact Bool.noConfusion hcm
  have hsplit : pySplitFirst ':' (k ++ ':' :: v2) = (k, v2) := by
    unfold pySplitFirst
    rw [takeWhile_append_all hkchars, dropWhile_append_all hkchars]
    simp
  have hcon : (k ++ ':' :: v2).contains ':' = true :=
    list_contains_mem.mpr (List.mem_append_right k (List.mem_cons_self ':' v2))
  obtain ⟨c, k', hk⟩ := List.exists_cons_of_ne_nil hne
  subst hk
  unfold _parse_stanzas_step
  split_ifs with h1 h2
  · exact absurd h1 (by simp)
  · rw [List.cons_append] at h2
    exact absurd h2 (by
      have : startsWithSpaceTab (c :: (k' ++ ':' :: v2)) = false := hsw
      rw [this]
      decide)
  · rw [hsplit]
    show Except.ok (stanzas, dictSet current (pyStrip (c :: k')) (pyLStrip v2)) =
      Except.ok (stanzas, dictSet current (c :: k') v2)
    rw [hstrip, hlstrip]

/-- C10 witness: a duplicated `Package` key line is accepted and the later
value wins, with one entry in the stanza. -/
theorem stanza_duplicate_field_overwrites_witness :
    _parse_stanzas_step ([], [("Package".data, "foo".data)])
        ("Package".data ++ ':' :: "bar".data) =
      Except.ok ([], dictSet [("Package".data, "foo".data)] "Package".data
        "bar".data) ∧
    (dictSet [("Package".data, "foo".data)] "Package".data "bar".data).lookup
        "Package".data = some "bar".data ∧
    (dictSet [("Package".data, "foo".data)] "Package".data "bar".data).map
        Prod.fst = [("Package".data, "foo".data)].map Prod.fst := by
  have h := stanza_duplicate_field_overwrites [] [("Package".data, "foo".data)]
    "Package".data "foo".data "bar".data (by decide) (by decide) (by decide)
    (by decide) (by decide) (by decide)
  exact h

/-- C3: for every index, dependency source, and starting package name, the
closure walk run with the index-derived fuel budget terminates (never
exhausts its fuel, even on cyclic dependency graphs), the records it
processes have pairwise-distinct `(name, version, arch)` keys (each triple
is downloaded and re-resolved at most once), and a popped record whose key
is already in `visited_pkgkeys` is skipped outright — the walk continues on
the rest of the stack without extending the processed list. -/
theorem closure_walk_terminates_visits_once :
    (∀ (deps : PackageRecord → List (List DepAtom)) (initial_pkg_name : String)
       (target_arch : String) (pkgs_by_name provides_index : PkgIndex),
      fetch_dependencies_recursive deps initial_pkg_name target_arch pkgs_by_name
          provides_index (walkFuel deps pkgs_by_name provides_index) ≠
        WalkResult.outOfFuel ∧
      (∀ (visited : List PkgKey) (processed : List PackageRecord),
        fetch_dependencies_recursive deps initial_pkg_name target_arch pkgs_by_name
            provides_index (walkFuel deps pkgs_by_name provides_index) =
          WalkResult.done visited processed → (processed.map pkgKey).Nodup)) ∧
    (∀ (deps : PackageRecord → List (List DepAtom)) (target_arch : String)
       (pkgs_by_name provides_index : PkgIndex) (fuel : Nat)
       (pkg : PackageRecord) (rest : List PackageRecord)
       (visited : List PkgKey) (processed : List PackageRecord),
      pkgKey pkg ∈ visited →
      walkAux deps target_arch pkgs_by_name provides_index (fuel + 1) (pkg :: rest)
          visited processed =
        walkAux deps target_arch pkgs_by_name provides_index fuel rest visited
          processed) := by
  constructor
  · intro deps initial_pkg_name target_arch pkgs_by_name provides_index
    cases hp : _parse_single_dep_atom initial_pkg_name with
    | error e =>
      have heq : fetch_dependencies_recursive deps initial_pkg_name target_arch
          pkgs_by_name provides_index (walkFuel deps pkgs_by_name provides_index) =
          WalkResult.fatal e := by
        simp only [fetch_dependencies_recursive, hp]
      rw [heq]
      constructor
      · intro hc
        exact WalkResult.noConfusion hc
      · intro v pr h
        exact WalkResult.noConfusion h
    | ok fake_atom =>
      cases hr : resolve_single_atom fake_atom target_arch pkgs_by_name
          provides_index with
      | none =>
        have heq : fetch_dependencies_recursive deps initial_pkg_name target_arch
            pkgs_by_name provides_index (walkFuel deps pkgs_by_name provides_index) =
            WalkResult.fatal ("Top-level package " ++ initial_pkg_name ++
              " could not be resolved for arch " ++ target_arch ++ ".") := by
          simp only [fetch_dependencies_recursive, hp, hr]
        rw [heq]
        constructor
        · intro hc
          exact WalkResult.noConfusion hc
        · intro v pr h
          exact WalkResult.noConfusion h
      | some top_pkg =>
        have heq : fetch_dependencies_recursive deps initial_pkg_name target_arch
            pkgs_by_name provides_index (walkFuel deps pkgs_by_name provides_index) =
            walkAux deps target_arch pkgs_by_name provides_index
              (walkFuel deps pkgs_by_name provides_index) [top_pkg] [] [] := by
          simp only [fetch_dependencies_recursive, hp, hr]
        rw [heq]
        apply walkAux_spec deps target_arch pkgs_by_name provides_index
            (walkFuel deps pkgs_by_name provides_index) [top_pkg] [] []
        · intro p hp'
          rcases List.mem_cons.mp hp' with hpe | hpe
          · rw [hpe]
            exact resolve_single_atom_mem_universe hr
          · exact absurd hpe (List.not_mem_nil p)
        · simp
        · intro p hp'
          exact absurd hp' (List.not_mem_nil p)
        · have hle : unvisitedKeyCount pkgs_by_name provides_index [] ≤
              keyCount pkgs_by_name provides_index :=
            List.length_filter_le _ _
          have hmul : (maxGroupCount deps (walkUniverse pkgs_by_name provides_index) + 1) *
              unvisitedKeyCount pkgs_by_name provides_index [] ≤
              (maxGroupCount deps (walkUniverse pkgs_by_name provides_index) + 1) *
                keyCount pkgs_by_name provides_index :=
            Nat.mul_le_mul_left _ hle
          unfold walkFuel
          generalize hX : (maxGroupCount deps (walkUniverse pkgs_by_name provides_index) + 1) *
            unvisitedKeyCount pkgs_by_name provides_index [] = X at hmul ⊢
          generalize hY : (maxGroupCount deps (walkUniverse pkgs_by_name provides_index) + 1) *
            keyCount pkgs_by_name provides_index = Y at hmul ⊢
          simp only [List.length_cons, List.length_nil]
          omega
  · intro deps target_arch pkgs_by_name provides_index fuel pkg rest visited
      processed hv
    simp only [walkAux, hv, if_true]

/-- C3 witness: a two-package cyclic index (`cyca` ↔ `cycb`).  The walk
finishes, processes each record exactly once, and the skip equation fires
on an already-visited key. -/
theorem closure_walk_terminates_visits_once_witness :
    fetch_dependencies_recursive depsFromRecord "cyca" "arm64" cycPkgs []
        (walkFuel depsFromRecord cycPkgs []) =
      WalkResult.done [pkgKey cycBRecord, pkgKey cycARecord]
        [cycARecord, cycBRecord] ∧
    (([cycARecord, cycBRecord].map pkgKey).Nodup) ∧
    pkgKey cycARecord ∈ [pkgKey cycARecord] ∧
    walkAux depsFromRecord "arm64" cycPkgs [] 1 [cycARecord] [pkgKey cycARecord]
        [] =
      walkAux depsFromRecord "arm64" cycPkgs [] 0 [] [pkgKey cycARecord] [] :=
  ⟨by decide,
    (closure_walk_terminates_visits_once.1 depsFromRecord "cyca" "arm64" cycPkgs
      []).2 [pkgKey cycBRecord, pkgKey cycARecord] [cycARecord, cycBRecord]
      (by decide),
    by decide,
    closure_walk_terminates_visits_once.2 depsFromRecord "arm64" cycPkgs [] 0
      cycARecord [] [pkgKey cycARecord] [] (by decide)⟩
